import Mathlib

set_option maxRecDepth 100000

/-!
Verification of the idea-print receipt agent (Python) against its
specification.  Python strings are embedded as `List Char`, byte strings as
`List Nat` (each element a byte value), and the ambient clock
(`time.time()`) and transport outcomes are passed explicitly.
-/

/-! ## Python string primitives -/

/-- The whitespace characters recognised by Python's `str.strip`, `str.split`
and the `\s` regex class: the six characters that `textwrap`'s
`replace_whitespace` table rewrites.  (Python additionally treats a few rare
codepoints such as `\x1c`-`\x1f` and non-ASCII spaces as whitespace; no
claim here depends on those, and every concrete input used below behaves
identically under both sets.) -/
def isSp (c : Char) : Bool :=
  c = ' ' || c = '\t' || c = '\n' || c = '\x0b' || c = '\x0c' || c = '\r'

/-- Python `str.strip()`: drop leading and trailing whitespace. -/
def pyStrip (l : List Char) : List Char :=
  ((l.dropWhile isSp).reverse.dropWhile isSp).reverse

/-- Python `text.split("\n")`: split on every single newline, keeping empty
pieces (`"".split("\n") == [""]`). -/
def splitNL : List Char → List (List Char)
  | [] => [[]]
  | c :: cs =>
    if c = '\n' then [] :: splitNL cs
    else
      match splitNL cs with
      | [] => [[c]]
      | r :: rs => (c :: r) :: rs

/-- Python `text.split("\n\n")`: split on each leftmost non-overlapping
occurrence of two consecutive newlines. -/
def splitOnNewlinePair : List Char → List (List Char)
  | [] => [[]]
  | '\n' :: '\n' :: rest => [] :: splitOnNewlinePair rest
  | c :: rest =>
    match splitOnNewlinePair rest with
    | [] => [[c]]
    | r :: rs => (c :: r) :: rs

/-- Python `str.expandtabs(8)` (the first step of `textwrap`'s
`_munge_whitespace`): each tab becomes spaces up to the next multiple of 8,
with the column reset by newlines and carriage returns. -/
def expandTabsGo : Nat → List Char → List Char
  | _, [] => []
  | col, c :: rest =>
    if c = '\t' then
      let pad := 8 - col % 8
      List.replicate pad ' ' ++ expandTabsGo (col + pad) rest
    else if c = '\n' || c = '\r' then c :: expandTabsGo 0 rest
    else c :: expandTabsGo (col + 1) rest

def expandTabs (l : List Char) : List Char := expandTabsGo 0 l

/-- The `replace_whitespace` step of `textwrap`'s `_munge_whitespace`: each
whitespace character is replaced by a single space. -/
def replaceWS (l : List Char) : List Char :=
  l.map (fun c => if isSp c then ' ' else c)

/-- `textwrap._munge_whitespace` with the default options used by the
renderer (`expand_tabs=True`, `replace_whitespace=True`). -/
def munge (l : List Char) : List Char := replaceWS (expandTabs l)

/-- `textwrap`'s chunking of munged text with `break_on_hyphens=False`: the
`(\s+)` regex split, i.e. maximal runs of whitespace and of non-whitespace,
in order, separators kept. -/
def splitChunks : List Char → List (List Char)
  | [] => []
  | c :: cs =>
    match splitChunks cs with
    | [] => [[c]]
    | [] :: rest => [[c]] ++ rest
    | (d :: ds) :: rest =>
      if isSp c = isSp d then (c :: d :: ds) :: rest
      else [c] :: (d :: ds) :: rest

/-- Is a chunk pure whitespace (`chunk.strip() == ''`)?  Used by
`drop_whitespace` handling inside `textwrap._wrap_chunks`. -/
def isWSChunk (ch : List Char) : Bool := ch.all isSp

/-- The greedy inner loop of `textwrap._wrap_chunks`: starting from
accumulated length `acc`, take chunks while they keep the line within
`width`; returns the taken prefix and the remainder. -/
def packLine (width : Nat) : Nat → List (List Char) → List (List Char) × List (List Char)
  | _, [] => ([], [])
  | acc, c :: cs =>
    if acc + c.length ≤ width then
      let r := packLine width (acc + c.length) cs
      (c :: r.1, r.2)
    else ([], c :: cs)

/-- The `drop_whitespace` trailing-chunk deletion of `_wrap_chunks`: if the
line's last chunk is pure whitespace it is removed (chunks alternate, so at
most one such chunk can trail). -/
def dropTrailingWS (line : List (List Char)) : List (List Char) :=
  match line.getLast? with
  | some last => if isWSChunk last then line.dropLast else line
  | none => line

/-- One iteration of the outer loop of `textwrap._wrap_chunks` after the
leading-whitespace drop: greedy packing, then `_handle_long_word` with
`break_long_words=False` (the whole long chunk is emitted only onto an empty
line), then the trailing-whitespace drop.  Returns the emitted line (if the
line is non-empty) and the remaining chunks. -/
def handleLongWord (width : Nat) (pq : List (List Char) × List (List Char)) :
    List (List Char) × List (List Char) :=
  match pq.2 with
  | c :: cs => if width < c.length ∧ pq.1 = [] then ([c], cs) else pq
  | [] => pq

def wrapStepCore (width : Nat) (chunks : List (List Char)) :
    Option (List Char) × List (List Char) :=
  let q := handleLongWord width (packLine width 0 chunks)
  let cur := dropTrailingWS q.1
  (if cur = [] then none else some cur.flatten, q.2)

/-- A full iteration of `_wrap_chunks`' outer loop: with `drop_whitespace`,
a leading whitespace chunk is dropped once at least one line exists. -/
def wrapStep (width : Nat) (emitted : Bool) (chunks : List (List Char)) :
    Option (List Char) × List (List Char) :=
  match chunks with
  | c :: cs =>
    if emitted ∧ isWSChunk c then wrapStepCore width cs
    else wrapStepCore width chunks
  | [] => wrapStepCore width []

/-- The outer loop of `textwrap._wrap_chunks`.  Every iteration consumes at
least one chunk, so `fuel = chunks.length` suffices; the fuel only makes the
recursion structural. -/
def wrapChunksGo (width : Nat) : Nat → Bool → List (List Char) → List (List Char)
  | _, _, [] => []
  | 0, _, _ :: _ => []
  | fuel + 1, emitted, c :: cs =>
    match wrapStep width emitted (c :: cs) with
    | (some line, rest) => line :: wrapChunksGo width fuel true rest
    | (none, rest) => wrapChunksGo width fuel emitted rest

/-- Python `textwrap.wrap(text, width, break_long_words=False,
break_on_hyphens=False)` as called by `Renderer.wrap_text`. -/
def textwrapWrap (width : Nat) (text : List Char) : List (List Char) :=
  let chunks := splitChunks (munge text)
  wrapChunksGo width chunks.length false chunks

/-- The body of `Renderer.wrap_text`'s inner loop for one sub-line:
`sub = sub.strip()`; empty sub-lines yield one blank line, other sub-lines
are wrapped (`wrapped if wrapped else [""]`). -/
def wrapSub (width : Nat) (sub : List Char) : List (List Char) :=
  let s := pyStrip sub
  if s = [] then [[]]
  else
    let w := textwrapWrap width s
    if w = [] then [[]] else w

/-- `Renderer.wrap_text` restricted to one paragraph: split on single
newlines and process each sub-line. -/
def wrapParagraph (width : Nat) (p : List Char) : List (List Char) :=
  (splitNL p).flatMap (wrapSub width)

/-- Join the per-paragraph line lists with one blank separator line between
paragraphs (but not after the last), as `Renderer.wrap_text` does. -/
def joinParas : List (List (List Char)) → List (List Char)
  | [] => []
  | [p] => p
  | p :: ps => p ++ [[]] ++ joinParas ps

/-- `Renderer.wrap_text(text)` with `width = profile.chars_per_line`. -/
def wrap_text (width : Nat) (text : List Char) : List (List Char) :=
  joinParas ((splitOnNewlinePair text).map (wrapParagraph width))

/-- The whitespace-delimited tokens `textwrap` wraps for one sub-line: the
non-whitespace chunks of the munged, stripped sub-line. -/
def subTokens (sub : List Char) : List (List Char) :=
  (splitChunks (munge (pyStrip sub))).filter (fun ch => ¬ isWSChunk ch)

/-- All tokens of an input text, in the order `wrap_text` sees them. -/
def tokensOf (text : List Char) : List (List Char) :=
  (splitOnNewlinePair text).flatMap (fun p => (splitNL p).flatMap subTokens)

/-! ## ESC/POS byte vocabulary (`renderer.py`) and receipt template
(`template.py`).  Bytes are `Nat` values below 256. -/

def ESC : List Nat := [27]
def GS : List Nat := [29]
def INIT : List Nat := ESC ++ [64]
def ALIGN_LEFT : List Nat := ESC ++ [97, 0]
def ALIGN_CENTER : List Nat := ESC ++ [97, 1]
def BOLD_ON : List Nat := ESC ++ [69, 1]
def BOLD_OFF : List Nat := ESC ++ [69, 0]
def CUT_FULL : List Nat := GS ++ [86, 0]
def CUT_PARTIAL : List Nat := GS ++ [86, 1]

/-- `renderer.feed(n)`: `ESC d` plus the count as one byte.  Python's
`bytes([n])` is only defined for `0 ≤ n ≤ 255` (it raises otherwise);
theorems about documents therefore assume `n ≤ 255`. -/
def feedCmd (n : Nat) : List Nat := ESC ++ [100, n]

inductive CutType where
  | full
  | partial'
  | none
deriving DecidableEq

/-- `config.PrinterProfile`.  The `encoding` field is fixed to the default
`"cp437"` (no code under test ever supplies another encoding). -/
structure PrinterProfile where
  chars_per_line : Nat := 30
  cut_type : CutType := CutType.full
  feed_lines_before_cut : Nat := 4
deriving DecidableEq

/-- One character under Python's `cp437` codec with `errors="replace"`:
code page 437 is ASCII on the low half; the upper half of the code page is
outside the ASCII texts exercised here and is modelled by the replacement
byte `?` that `errors="replace"` would produce for unencodable characters. -/
def cp437Byte (c : Char) : Nat :=
  if c.toNat < 128 then c.toNat else 63

def encodeStr (l : List Char) : List Nat := l.map cp437Byte

/-- `Renderer.render_line(char)`: the char repeated across the line plus a
line feed. -/
def render_line (profile : PrinterProfile) (c : Char) : List Nat :=
  encodeStr (List.replicate profile.chars_per_line c) ++ [10]

/-- The `HEADER_ART` lightbulb string from `template.py`. -/
def HEADER_ART : List Char :=
  "\n     .-\"\"-.\n    /      \\\n   |  O  O  |\n   |   __   |\n    \\ \\__/ /\n     '-..-'\n       ||\n      /__\\\n".toList

/-- The `HEADER_ART_NARROW` string from `template.py`. -/
def HEADER_ART_NARROW : List Char :=
  "\n    .---.\n   /     \\\n  | O   O |\n  |  ___  |\n   \\_____/\n     | |\n    /___\\\n".toList

/-- The header block of `build_receipt`: centered art, narrow variant when
`chars_per_line < 42`, each line of `header.strip().split("\n")` encoded and
followed by a line feed. -/
def headerBytes (profile : PrinterProfile) : List Nat :=
  let header := if profile.chars_per_line < 42 then HEADER_ART_NARROW else HEADER_ART
  (splitNL (pyStrip header)).flatMap (fun line => encodeStr line ++ [10])

/-- Everything `build_receipt` emits before the optional ID line:
initialise, centered header art, blank line, bold title, then the timestamp
line.  The timestamp is `timestamp.strftime("%Y-%m-%d %H:%M:%S")`, passed
here already formatted (`datetime` is an external collaborator). -/
def receiptPrefix (tsStr : List Char) (profile : PrinterProfile) : List Nat :=
  INIT ++ ALIGN_CENTER ++ headerBytes profile ++ [10]
    ++ BOLD_ON ++ encodeStr "NEW IDEA".toList ++ [10] ++ BOLD_OFF
    ++ encodeStr tsStr ++ [10]

/-- The `if idea_id:` block of `build_receipt`: Python truthiness, so both
`None` and the empty string produce nothing. -/
def idLineBytes (idea_id : Option (List Char)) : List Nat :=
  match idea_id with
  | some s => if s = [] then [] else encodeStr ("ID: ".toList ++ s) ++ [10]
  | none => []

/-- The cut command selected by `profile.cut_type`; `"none"` emits nothing. -/
def cutBytes : CutType → List Nat
  | CutType.full => CUT_FULL
  | CutType.partial' => CUT_PARTIAL
  | CutType.none => []

/-- The printable part `build_receipt` emits after the optional ID line:
blank line, divider, the wrapped idea text, divider, footer. -/
def receiptBody (idea_text : List Char) (profile : PrinterProfile) : List Nat :=
  [10] ++ ALIGN_LEFT ++ render_line profile '='
    ++ (wrap_text profile.chars_per_line idea_text).flatMap
        (fun line => encodeStr line ++ [10])
    ++ render_line profile '='
    ++ ALIGN_CENTER ++ [10] ++ encodeStr "* * *".toList ++ [10]

/-- Everything `build_receipt` emits after the optional ID line: the
printable body, then the feed command and the cut command. -/
def receiptSuffix (idea_text : List Char) (profile : PrinterProfile) : List Nat :=
  receiptBody idea_text profile
    ++ feedCmd profile.feed_lines_before_cut
    ++ cutBytes profile.cut_type

/-- `template.build_receipt(idea_text, idea_id, timestamp, profile)`: the
sequential `bytearray` extends of `template.py`, grouped into the part
before the ID line, the ID line, and the part after it. -/
def build_receipt (idea_text : List Char) (idea_id : Option (List Char))
    (tsStr : List Char) (profile : PrinterProfile) : List Nat :=
  receiptPrefix tsStr profile ++ idLineBytes idea_id ++ receiptSuffix idea_text profile

/-! ## HMAC-SHA256 authentication (`auth.py`)

`hashlib.sha256` and `hmac.new(...).hexdigest()` are embedded as the
standard SHA-256 / HMAC algorithms over byte lists; `str.encode()` is UTF-8.
-/

/-- Arithmetic modulo `2 ^ 32`. -/
def w32 (n : Nat) : Nat := n % 4294967296

def add32 (a b : Nat) : Nat := w32 (a + b)

/-- Rotate a 32-bit word right by `n` bits. -/
def rotr32 (n x : Nat) : Nat := w32 ((x >>> n) ||| (x <<< (32 - n)))

def sigma0 (x : Nat) : Nat := (rotr32 7 x) ^^^ (rotr32 18 x) ^^^ (x >>> 3)
def sigma1 (x : Nat) : Nat := (rotr32 17 x) ^^^ (rotr32 19 x) ^^^ (x >>> 10)
def bigSigma0 (x : Nat) : Nat := (rotr32 2 x) ^^^ (rotr32 13 x) ^^^ (rotr32 22 x)
def bigSigma1 (x : Nat) : Nat := (rotr32 6 x) ^^^ (rotr32 11 x) ^^^ (rotr32 25 x)

/-- The SHA-256 round constants. -/
def sha256K : List Nat :=
  [1116352408, 1899447441, 3049323471, 3921009573, 961987163,
   1508970993, 2453635748, 2870763221, 3624381080, 310598401,
   607225278, 1426881987, 1925078388, 2162078206, 2614888103,
   3248222580, 3835390401, 4022224774, 264347078, 604807628,
   770255983, 1249150122, 1555081692, 1996064986, 2554220882,
   2821834349, 2952996808, 3210313671, 3336571891, 3584528711,
   113926993, 338241895, 666307205, 773529912, 1294757372,
   1396182291, 1695183700, 1986661051, 2177026350, 2456956037,
   2730485921, 2820302411, 3259730800, 3345764771, 3516065817,
   3600352804, 4094571909, 275423344, 430227734, 506948616,
   659060556, 883997877, 958139571, 1322822218, 1537002063,
   1747873779, 1955562222, 2024104815, 2227730452, 2361852424,
   2428436474, 2756734187, 3204031479, 3329325298]

/-- The SHA-256 initial hash value. -/
def sha256H0 : List Nat :=
  [1779033703, 3144134277, 1013904242, 2773480762,
   1359893119, 2600822924, 528734635, 1541459225]

/-- SHA-256 padding: `0x80`, zeros, then the bit length as 8 big-endian
bytes, reaching a multiple of 64 bytes. -/
def sha256Pad (msg : List Nat) : List Nat :=
  let len := msg.length
  let zeros := (55 + 64 - len % 64) % 64
  let bitLen := len * 8
  msg ++ [128] ++ List.replicate zeros 0 ++
    [bitLen >>> 56 % 256, bitLen >>> 48 % 256, bitLen >>> 40 % 256,
     bitLen >>> 32 % 256, bitLen >>> 24 % 256, bitLen >>> 16 % 256,
     bitLen >>> 8 % 256, bitLen % 256]

/-- Group bytes into big-endian 32-bit words. -/
def bytesToWords : List Nat → List Nat
  | a :: b :: c :: d :: rest =>
    (((a * 256 + b) * 256 + c) * 256 + d) :: bytesToWords rest
  | _ => []

/-- Split a list into 16-word blocks (padded input is always a multiple of
16 words; a short final group can only arise from unpadded input). -/
def toBlocks : List Nat → List (List Nat)
  | [] => []
  | w1 :: w2 :: w3 :: w4 :: w5 :: w6 :: w7 :: w8 ::
    w9 :: w10 :: w11 :: w12 :: w13 :: w14 :: w15 :: w16 :: rest =>
    [w1, w2, w3, w4, w5, w6, w7, w8, w9, w10, w11, w12, w13, w14, w15, w16]
      :: toBlocks rest
  | l => [l]

/-- Extend a 16-word block to the 64-word message schedule. -/
def extendSchedule : Nat → List Nat → List Nat
  | 0, ws => ws
  | n + 1, ws =>
    let k := ws.length
    let nw := w32 (sigma1 (ws.getD (k - 2) 0) + ws.getD (k - 7) 0 +
      sigma0 (ws.getD (k - 15) 0) + ws.getD (k - 16) 0)
    extendSchedule n (ws ++ [nw])

/-- The SHA-256 working state, eight 32-bit words. -/
structure Sha256St where
  a : Nat
  b : Nat
  c : Nat
  d : Nat
  e : Nat
  f : Nat
  g : Nat
  h : Nat

/-- One SHA-256 round. -/
def sha256Round (st : Sha256St) (kw : Nat × Nat) : Sha256St :=
  let t1 := w32 (st.h + bigSigma1 st.e + ((st.e &&& st.f) ^^^ ((2^32 - 1 - st.e) &&& st.g))
    + kw.1 + kw.2)
  let t2 := w32 (bigSigma0 st.a + ((st.a &&& st.b) ^^^ (st.a &&& st.c) ^^^ (st.b &&& st.c)))
  ⟨w32 (t1 + t2), st.a, st.b, st.c, w32 (st.d + t1), st.e, st.f, st.g⟩

/-- Compress one 16-word block into the running digest (8 words). -/
def sha256Compress (digest : List Nat) (block : List Nat) : List Nat :=
  let ws := extendSchedule 48 block
  let st0 : Sha256St :=
    ⟨digest.getD 0 0, digest.getD 1 0, digest.getD 2 0, digest.getD 3 0,
     digest.getD 4 0, digest.getD 5 0, digest.getD 6 0, digest.getD 7 0⟩
  let st := (sha256K.zip ws |>.map (fun p => (p.1, p.2))).foldl
    (fun s kw => sha256Round s kw) st0
  [add32 (digest.getD 0 0) st.a, add32 (digest.getD 1 0) st.b,
   add32 (digest.getD 2 0) st.c, add32 (digest.getD 3 0) st.d,
   add32 (digest.getD 4 0) st.e, add32 (digest.getD 5 0) st.f,
   add32 (digest.getD 6 0) st.g, add32 (digest.getD 7 0) st.h]

/-- Big-endian bytes of a 32-bit word. -/
def wordBytes (w : Nat) : List Nat :=
  [w >>> 24 % 256, w >>> 16 % 256, w >>> 8 % 256, w % 256]

/-- SHA-256 of a byte list, as 32 digest bytes. -/
def sha256 (msg : List Nat) : List Nat :=
  let blocks := toBlocks (bytesToWords (sha256Pad msg))
  (blocks.foldl sha256Compress sha256H0).flatMap wordBytes

/-- HMAC-SHA256 digest bytes (RFC 2104 with a 64-byte block). -/
def hmacSha256 (key msg : List Nat) : List Nat :=
  let k1 := if 64 < key.length then sha256 key else key
  let k0 := k1 ++ List.replicate (64 - k1.length) 0
  let ipad := k0.map (fun b => b ^^^ 0x36)
  let opad := k0.map (fun b => b ^^^ 0x5c)
  sha256 (opad ++ sha256 (ipad ++ msg))

def hexChars : List Char :=
  ['0', '1', '2', '3', '4', '5', '6', '7'] ++
    ['8', '9', 'a', 'b', 'c', 'd', 'e', 'f']

def hexDigit (n : Nat) : Char := hexChars.getD n '0'

/-- `hexdigest()`: lowercase hex of the digest bytes. -/
def toHex (bytes : List Nat) : List Char :=
  bytes.flatMap (fun b => [hexDigit (b / 16), hexDigit (b % 16)])

/-- `hmac.new(key, msg, hashlib.sha256).hexdigest()`. -/
def hmacHex (key msg : List Nat) : List Char := toHex (hmacSha256 key msg)

/-- UTF-8 encoding of one character (`str.encode()`). -/
def utf8Char (c : Char) : List Nat :=
  let n := c.toNat
  if n < 128 then [n]
  else if n < 2048 then [192 ||| (n >>> 6), 128 ||| (n &&& 63)]
  else if n < 65536 then
    [224 ||| (n >>> 12), 128 ||| ((n >>> 6) &&& 63), 128 ||| (n &&& 63)]
  else
    [240 ||| (n >>> 18), 128 ||| ((n >>> 12) &&& 63),
     128 ||| ((n >>> 6) &&& 63), 128 ||| (n &&& 63)]

/-- `str.encode()` (UTF-8) of an embedded Python string. -/
def utf8Bytes (s : List Char) : List Nat := s.flatMap utf8Char

/-- The character of one decimal digit. -/
def digitChar (d : Nat) : Char :=
  if d = 0 then '0' else if d = 1 then '1' else if d = 2 then '2'
  else if d = 3 then '3' else if d = 4 then '4' else if d = 5 then '5'
  else if d = 6 then '6' else if d = 7 then '7' else if d = 8 then '8' else '9'

/-- Decimal digits of a positive natural, most significant first.  The fuel
argument (any bound ≥ n) makes the recursion structural. -/
def natDigitsGo : Nat → Nat → List Char
  | 0, _ => []
  | fuel + 1, n =>
    if n = 0 then [] else natDigitsGo fuel (n / 10) ++ [digitChar (n % 10)]

/-- Python `str(n)` for a natural number. -/
def natStr (n : Nat) : List Char :=
  if n = 0 then ['0'] else natDigitsGo n n

/-- Python `str(i)` for an integer. -/
def intStr (i : Int) : List Char :=
  if i < 0 then '-' :: natStr i.natAbs else natStr i.natAbs

def isDigit (c : Char) : Bool := 48 ≤ c.toNat && c.toNat ≤ 57

def digitsVal (l : List Char) : Nat :=
  l.foldl (fun a c => a * 10 + (c.toNat - 48)) 0

/-- A non-empty all-digit string parsed as a natural number. -/
def parseNatDigits (l : List Char) : Option Nat :=
  if l ≠ [] ∧ l.all isDigit then some (digitsVal l) else none

/-- Python `int(s)` on an optionally signed decimal string.  (Python also
accepts surrounding whitespace and underscore digit separators; nothing in
the claims feeds those forms through `int`, and any string rejected here but
accepted by Python still yields an integer on the Python side, never an
exception escaping `verify_signature`, whose `try` catches `ValueError`.) -/
def pyInt (s : List Char) : Option Int :=
  match s with
  | [] => Option.none
  | c :: rest =>
    if c = '-' then (parseNatDigits rest).map (fun n => -(n : Int))
    else if c = '+' then (parseNatDigits rest).map (fun n => (n : Int))
    else (parseNatDigits (c :: rest)).map (fun n => (n : Int))

def isAsciiStr (s : List Char) : Bool := s.all (fun c => c.toNat < 128)

/-- `hmac.compare_digest` on two Python strings: equality, but only defined
when both strings are ASCII — on non-ASCII text it raises `TypeError`,
modelled as `none`. -/
def compare_digest (a b : List Char) : Option Bool :=
  if isAsciiStr a && isAsciiStr b then some (a = b) else none

/-- `auth.AuthResult`. -/
structure AuthResult where
  success : Bool
  error : Option (List Char) := Option.none
deriving DecidableEq

/-- The formatted reason `f"Timestamp too old: {age}s > {window_seconds}s"`. -/
def tooOldMsg (age : Nat) (window : Int) : List Char :=
  "Timestamp too old: ".toList ++ natStr age ++ "s > ".toList ++ intStr window ++ "s".toList

/-- The part of `auth.verify_signature` after the timestamp has parsed as
the integer `ts`: window check, expected HMAC, constant-time comparison. -/
def verifyParsed (body : List Nat) (signature timestamp secret : List Char)
    (window_seconds now ts : Int) : Option AuthResult :=
  let age := (now - ts).natAbs
  if (age : Int) > window_seconds then
    some ⟨false, some (tooOldMsg age window_seconds)⟩
  else
    let message := utf8Bytes timestamp ++ body
    let expected := hmacHex (utf8Bytes secret) message
    (compare_digest signature expected).map
      (fun ok =>
        if ¬ (ok = true) then ⟨false, some "Invalid signature".toList⟩
        else ⟨true, Option.none⟩)

/-- `auth.verify_signature(body, signature, timestamp, secret,
window_seconds)`.  `now` stands for `int(time.time())`.  The result is
`none` exactly when the Python code raises (which `hmac.compare_digest`
does on non-ASCII strings); otherwise `some` of the returned `AuthResult`. -/
def verify_signature (body : List Nat) (signature timestamp secret : List Char)
    (window_seconds : Int) (now : Int) : Option AuthResult :=
  if secret = [] then some ⟨false, some "HMAC secret not configured".toList⟩
  else if signature = [] then some ⟨false, some "Missing signature".toList⟩
  else if timestamp = [] then some ⟨false, some "Missing timestamp".toList⟩
  else
    match pyInt timestamp with
    | Option.none => some ⟨false, some "Invalid timestamp format".toList⟩
    | some ts => verifyParsed body signature timestamp secret window_seconds now ts

/-- `auth.generate_signature(body, timestamp, secret)`. -/
def generate_signature (body : List Nat) (timestamp : Int) (secret : List Char) :
    List Char :=
  hmacHex (utf8Bytes secret) (utf8Bytes (intStr timestamp) ++ body)

/-! ## Idempotency store (`dedupe.py`)

The SQLite table `processed_requests(request_id TEXT PRIMARY KEY,
processed_at INTEGER)` is embedded as an association list; the `INSERT`
of `check_and_mark` fails exactly when the primary key is already present. -/

structure DedupeStore where
  entries : List (String × Int)
  ttl_seconds : Int := 86400
deriving DecidableEq

/-- `DedupeStore.is_duplicate`. -/
def is_duplicate (s : DedupeStore) (request_id : String) : Bool :=
  s.entries.any (fun e => e.1 = request_id)

/-- `DedupeStore.check_and_mark(request_id)` at time `now`: a bare `INSERT`
that raises `IntegrityError` (returning `False`) when the id exists, and
otherwise records `(request_id, now)` and returns `True`. -/
def check_and_mark (s : DedupeStore) (request_id : String) (now : Int) :
    Bool × DedupeStore :=
  if s.entries.any (fun e => e.1 = request_id) then (false, s)
  else (true, ⟨s.entries ++ [(request_id, now)], s.ttl_seconds⟩)

/-- `DedupeStore.cleanup_expired()` at time `now`: delete rows with
`processed_at < now - ttl_seconds`, returning the removed count. -/
def cleanup_expired (s : DedupeStore) (now : Int) : Nat × DedupeStore :=
  let cutoff := now - s.ttl_seconds
  let kept := s.entries.filter (fun e => decide (cutoff ≤ e.2))
  (s.entries.length - kept.length, ⟨kept, s.ttl_seconds⟩)

/-! ## Print pipeline (`server.py`, `print_receipt`)

The transport (`get_transport` + `open`/`write`/`close` inside the lock) is
an external device; its combined outcome is a parameter.  Auth has already
been checked by the `verify_auth` dependency before this handler runs. -/

inductive TransportOutcome where
  | ok
  | err (msg : String)
deriving DecidableEq

structure PrintResponse where
  success : Bool
  message : String
  idea_id : Option String := Option.none
deriving DecidableEq

inductive HandlerResult where
  | resp (r : PrintResponse)
  | httpError (status : Nat) (detail : String)
deriving DecidableEq

/-- The rendering and printing tail of `print_receipt` (everything after the
dedupe check): build the receipt, then under the print lock open, write and
close the transport; a transport exception becomes HTTP 500. -/
def printTail (idea_id : Option String) (idea_text : List Char)
    (tsStr : List Char) (transport : TransportOutcome) : HandlerResult :=
  let _receipt := build_receipt idea_text (idea_id.map String.toList) tsStr {}
  match transport with
  | TransportOutcome.ok =>
    HandlerResult.resp ⟨true, "Receipt printed successfully", idea_id⟩
  | TransportOutcome.err e =>
    HandlerResult.httpError 500 ("Print failed: " ++ e)

/-- `server.print_receipt`: the dedupe gate (`if _dedupe_store and
body.request_id:` — Python truthiness, so a missing store, a missing id or
an empty id all skip it) followed by the print tail.  Returns the handler
outcome and the dedupe store as it is left afterwards. -/
def print_receipt (store : Option DedupeStore) (request_id idea_id : Option String)
    (idea_text : List Char) (tsStr : List Char) (now : Int)
    (transport : TransportOutcome) : HandlerResult × Option DedupeStore :=
  match store, request_id with
  | some st, some rid =>
    if rid ≠ "" then
      let r := check_and_mark st rid now
      if ¬ r.1 then
        (HandlerResult.resp ⟨true, "Duplicate request (already processed)", idea_id⟩,
         some r.2)
      else (printTail idea_id idea_text tsStr transport, some r.2)
    else (printTail idea_id idea_text tsStr transport, store)
  | _, _ => (printTail idea_id idea_text tsStr transport, store)

/-! ## Auxiliary notions used by the theorems -/

/-- A chunk of non-whitespace characters. -/
def WordChunk (ch : List Char) : Prop := ch ≠ [] ∧ ∀ c ∈ ch, isSp c = false

/-- A chunk of whitespace characters. -/
def SpaceChunk (ch : List Char) : Prop := ch ≠ [] ∧ ∀ c ∈ ch, isSp c = true

def sumLen (l : List (List Char)) : Nat := (l.map List.length).sum

/-- The chunk list of a single-spaced word sequence. -/
def spaced (ws : List (List Char)) : List (List Char) := List.intersperse [' '] ws

/-- Join a list of words (or lines) with single spaces. -/
def joinWS (ws : List (List Char)) : List Char := (List.intersperse [' '] ws).flatten

/-- Python `str.split()` with no argument: the maximal whitespace-delimited
tokens, leading/trailing/repeated whitespace discarded.  `cur` accumulates
the current token reversed. -/
def pyWordsGo (cur : List Char) : List Char → List (List Char)
  | [] => if cur = [] then [] else [cur.reverse]
  | c :: cs =>
    if isSp c then
      if cur = [] then pyWordsGo [] cs else cur.reverse :: pyWordsGo [] cs
    else pyWordsGo (c :: cur) cs

def pyWords (l : List Char) : List (List Char) := pyWordsGo [] l

/-- The whitespace-collapsed original of the round-trip property: the text's
whitespace-delimited tokens joined by single spaces. -/
def wsCollapse (l : List Char) : List Char := joinWS (pyWords l)

/-- Rejoin the pieces of `splitNL` with single newlines. -/
def joinNL : List (List Char) → List Char
  | [] => []
  | [x] => x
  | x :: xs => x ++ '\n' :: joinNL xs

/-! ## Structure of `splitChunks` output -/

theorem splitChunks_flatten (l : List Char) : (splitChunks l).flatten = l := by
  induction l with
  | nil => rfl
  | cons c cs ih =>
    rw [splitChunks]
    rcases h : splitChunks cs with _ | ⟨ch, rest⟩
    · simp [h] at ih; simp [ih]
    · rcases ch with _ | ⟨d, ds⟩
      · simpa [h] using ih
      · by_cases hk : isSp c = isSp d
        · simpa [hk, h] using ih
        · simpa [hk, h] using ih

theorem splitChunks_chunks (l : List Char) :
    ∀ ch ∈ splitChunks l, WordChunk ch ∨ SpaceChunk ch := by
  induction l with
  | nil => simp [splitChunks]
  | cons c cs ih =>
    intro ch hch
    rw [splitChunks] at hch
    rcases h : splitChunks cs with _ | ⟨ch0, rest⟩
    · rw [h] at hch
      simp at hch
      subst hch
      cases hc : isSp c
      · exact Or.inl ⟨by simp, by simp [hc]⟩
      · exact Or.inr ⟨by simp, by simp [hc]⟩
    · rw [h] at hch
      rcases ch0 with _ | ⟨d, ds⟩
      · simp at hch
        rcases hch with hch | hch
        · subst hch
          cases hc : isSp c
          · exact Or.inl ⟨by simp, by simp [hc]⟩
          · exact Or.inr ⟨by simp, by simp [hc]⟩
        · exact ih ch (by simp [h, hch])
      · have hd : WordChunk (d :: ds) ∨ SpaceChunk (d :: ds) := ih _ (by simp [h])
        by_cases hk : isSp c = isSp d
        · simp [hk] at hch
          rcases hch with hch | hch
          · subst hch
            rcases hd with ⟨_, hw⟩ | ⟨_, hw⟩
            · refine Or.inl ⟨by simp, ?_⟩
              intro x hx
              rcases List.mem_cons.mp hx with hx | hx
              · subst hx; rw [hk]; exact hw d (by simp)
              · exact hw x hx
            · refine Or.inr ⟨by simp, ?_⟩
              intro x hx
              rcases List.mem_cons.mp hx with hx | hx
              · subst hx; rw [hk]; exact hw d (by simp)
              · exact hw x hx
          · exact ih ch (by simp [h, hch])
        · simp [hk] at hch
          rcases hch with hch | hch | hch
          · subst hch
            cases hc : isSp c
            · exact Or.inl ⟨by simp, by simp [hc]⟩
            · exact Or.inr ⟨by simp, by simp [hc]⟩
          · subst hch; exact hd
          · exact ih ch (by simp [h, hch])

theorem isWSChunk_of_word {ch : List Char} (h : WordChunk ch) : isWSChunk ch = false := by
  rcases ch with _ | ⟨c, cs⟩
  · exact absurd rfl h.1
  · simp only [isWSChunk, List.all_cons, Bool.and_eq_false_iff]
    exact Or.inl (h.2 c (by simp))

theorem isWSChunk_of_space {ch : List Char} (h : SpaceChunk ch) : isWSChunk ch = true := by
  simp only [isWSChunk, List.all_eq_true]
  exact h.2

theorem splitChunks_head (c : Char) (cs : List Char) :
    ∃ t rest, splitChunks (c :: cs) = (c :: t) :: rest := by
  rw [splitChunks]
  rcases splitChunks cs with _ | ⟨ch, rest⟩
  · exact ⟨[], [], rfl⟩
  · rcases ch with _ | ⟨d, ds⟩
    · exact ⟨[], rest, rfl⟩
    · by_cases hk : isSp c = isSp d
      · exact ⟨d :: ds, rest, by simp [hk]⟩
      · exact ⟨[], (d :: ds) :: rest, by simp [hk]⟩

theorem splitChunks_chain (l : List Char) :
    List.Chain' (fun a b => isWSChunk a ≠ isWSChunk b) (splitChunks l) := by
  induction l with
  | nil => simp [splitChunks]
  | cons c cs ih =>
    rw [splitChunks]
    rcases h : splitChunks cs with _ | ⟨ch, rest⟩
    · simp
    · rcases ch with _ | ⟨d, ds⟩
      · exact absurd (splitChunks_chunks cs [] (by simp [h]))
          (by simp [WordChunk, SpaceChunk])
      · have hker : isWSChunk (d :: ds) = isSp d := by
          rcases splitChunks_chunks cs (d :: ds) (by simp [h]) with hw | hw
          · rw [isWSChunk_of_word hw, hw.2 d (by simp)]
          · rw [isWSChunk_of_space hw, hw.2 d (by simp)]
        rw [h] at ih
        by_cases hk : isSp c = isSp d
        · simp only [hk, if_true]
          have hknew : isWSChunk (c :: d :: ds) = isWSChunk (d :: ds) := by
            simp only [isWSChunk, List.all_cons]
            rcases splitChunks_chunks cs (d :: ds) (by simp [h]) with hw | hw
            · rw [hk, hw.2 d (by simp)]; simp
            · rw [hk, hw.2 d (by simp)]; simp
          rcases rest with _ | ⟨e, es⟩
          · simp
          · rw [List.chain'_cons]
            rw [List.chain'_cons] at ih
            exact ⟨hknew ▸ ih.1, ih.2⟩
        · simp only [hk, if_false]
          rw [List.chain'_cons]
          refine ⟨?_, ih⟩
          have : isWSChunk [c] = isSp c := by simp [isWSChunk]
          rw [this, hker]
          exact hk

/-! ## Behaviour of one wrapping step -/

theorem sumLen_flatten (l : List (List Char)) : l.flatten.length = sumLen l := by
  simp [sumLen, List.length_flatten]

theorem packLine_append (w : Nat) :
    ∀ (cs : List (List Char)) (acc : Nat),
      (packLine w acc cs).1 ++ (packLine w acc cs).2 = cs := by
  intro cs
  induction cs with
  | nil => intro acc; rfl
  | cons c cs ih =>
    intro acc
    rw [packLine]
    by_cases h : acc + c.length ≤ w
    · simp only [h, if_true]
      simpa using ih (acc + c.length)
    · simp [h]

theorem packLine_sum (w : Nat) :
    ∀ (cs : List (List Char)) (acc : Nat),
      (packLine w acc cs).1 = [] ∨ acc + sumLen (packLine w acc cs).1 ≤ w := by
  intro cs
  induction cs with
  | nil => intro acc; exact Or.inl rfl
  | cons c cs ih =>
    intro acc
    rw [packLine]
    by_cases h : acc + c.length ≤ w
    · simp only [h, if_true]
      refine Or.inr ?_
      rcases ih (acc + c.length) with h2 | h2
      · simp [h2, sumLen]
        omega
      · simp only [sumLen, List.map_cons, List.sum_cons] at h2 ⊢
        omega
    · simp [h]

theorem packLine_cons_le (w : Nat) (c : List Char) (cs : List (List Char)) (acc : Nat)
    (h : acc + c.length ≤ w) :
    (packLine w acc (c :: cs)).1 = c :: (packLine w (acc + c.length) cs).1 ∧
    (packLine w acc (c :: cs)).2 = (packLine w (acc + c.length) cs).2 := by
  rw [packLine]
  simp [h]

theorem packLine_cons_gt (w : Nat) (c : List Char) (cs : List (List Char)) (acc : Nat)
    (h : ¬ acc + c.length ≤ w) :
    packLine w acc (c :: cs) = ([], c :: cs) := by
  rw [packLine]
  simp [h]

theorem dropTrailingWS_nil : dropTrailingWS [] = [] := rfl

/-- Dropping the trailing whitespace chunk keeps the head of a line whose
head chunk is not whitespace. -/
theorem dropTrailingWS_cons_head (c : List Char) (t : List (List Char))
    (hc : isWSChunk c = false) :
    ∃ t2, dropTrailingWS (c :: t) = c :: t2 := by
  rcases h : (c :: t).getLast? with _ | last
  · simp [List.getLast?_eq_none_iff] at h
  · rw [dropTrailingWS, h]
    by_cases hws : isWSChunk last
    · simp only [hws, if_true]
      rcases t with _ | ⟨d, ds⟩
      · simp at h
        subst h
        rw [hws] at hc
        simp at hc
      · exact ⟨(d :: ds).dropLast, rfl⟩
    · simp only [hws, if_false]
      exact ⟨t, rfl⟩

theorem dropTrailingWS_sumLen_le (l : List (List Char)) :
    sumLen (dropTrailingWS l) ≤ sumLen l := by
  rcases h : l.getLast? with _ | last
  · rw [dropTrailingWS, h]
  · rw [dropTrailingWS, h]
    by_cases hws : isWSChunk last
    · simp only [hws, if_true]
      have hne : l ≠ [] := by
        intro he
        rw [he] at h
        simp at h
      have hdec : l.dropLast ++ [l.getLast hne] = l := List.dropLast_append_getLast hne
      have : sumLen l = sumLen l.dropLast + (l.getLast hne).length := by
        conv_lhs => rw [← hdec]
        simp [sumLen]
      omega
    · simp [hws]

/-- After the trailing-whitespace drop, a line of alternating well-formed
chunks ends (if at all) with a word chunk. -/
theorem dropTrailingWS_last_word (l : List (List Char))
    (hok : ∀ x ∈ l, WordChunk x ∨ SpaceChunk x)
    (hchain : List.Chain' (fun a b => isWSChunk a ≠ isWSChunk b) l) :
    ∀ ch, (dropTrailingWS l).getLast? = some ch → WordChunk ch := by
  intro ch hch
  rcases h : l.getLast? with _ | last
  · have hdt : dropTrailingWS l = l := by rw [dropTrailingWS, h]
    rw [hdt, h] at hch
    exact absurd hch (by simp)
  · have hne : l ≠ [] := by
      intro he; rw [he] at h; simp at h
    have hdt : dropTrailingWS l = if isWSChunk last then l.dropLast else l := by
      rw [dropTrailingWS, h]
    rw [hdt] at hch
    by_cases hws : isWSChunk last
    · rw [if_pos hws] at hch
      have hmem : ch ∈ l := List.dropLast_subset l (by
        rcases List.getLast?_eq_some_iff.mp hch with ⟨ys, hys⟩
        rw [hys]; simp)
      rcases hok ch hmem with hw | hw
      · exact hw
      · exfalso
        have hdec : l.dropLast ++ [l.getLast hne] = l := List.dropLast_append_getLast hne
        have hlast : l.getLast hne = last := by
          have h2 := List.getLast?_eq_getLast l hne
          rw [h] at h2
          exact (Option.some_inj.mp h2).symm
        have hch2 : List.Chain' (fun a b => isWSChunk a ≠ isWSChunk b)
            (l.dropLast ++ [l.getLast hne]) := by rw [hdec]; exact hchain
        rw [List.chain'_append] at hch2
        have hrel := hch2.2.2 ch (by rw [hch]; rfl) (l.getLast hne) (by rfl)
        rw [hlast, hws, isWSChunk_of_space hw] at hrel
        exact hrel rfl
    · rw [if_neg hws, h] at hch
      have heq : ch = last := (Option.some_inj.mp hch).symm
      subst heq
      rcases hok ch (by
        rcases List.getLast?_eq_some_iff.mp h with ⟨ys, hys⟩
        rw [hys]; simp) with hw | hw
      · exact hw
      · exact absurd (isWSChunk_of_space hw) hws

theorem flatten_getLast?_of_last (l : List (List Char)) (ch : List Char)
    (h : l.getLast? = some ch) (hne : ch ≠ []) :
    l.flatten.getLast? = ch.getLast? := by
  rcases List.getLast?_eq_some_iff.mp h with ⟨ys, hys⟩
  subst hys
  rw [List.flatten_append, List.getLast?_append]
  have : (List.flatten [ch]) = ch := by simp
  rw [this]
  rcases ch with _ | ⟨c, cs⟩
  · exact absurd rfl hne
  · have : (c :: cs).getLast? = some ((c :: cs).getLast (by simp)) :=
      List.getLast?_eq_getLast _ _
    rw [this]
    rfl


theorem handleLongWord_of_ne (w : Nat) (p : List (List Char) × List (List Char))
    (h : p.1 ≠ []) : handleLongWord w p = p := by
  rcases p with ⟨a, b⟩
  rcases b with _ | ⟨c, cs⟩
  · rfl
  · simp only [handleLongWord]
    rw [if_neg]
    intro hcon
    exact h hcon.2

theorem wrapStepCore_eq (w : Nat) (chunks : List (List Char)) :
    wrapStepCore w chunks =
      ((if dropTrailingWS (handleLongWord w (packLine w 0 chunks)).1 = [] then none
        else some (dropTrailingWS (handleLongWord w (packLine w 0 chunks)).1).flatten),
       (handleLongWord w (packLine w 0 chunks)).2) := rfl

/-- One step of the outer wrapping loop on a chunk list whose head is a word
chunk: a line is always emitted; the rest is a shorter suffix; the line
begins and ends with non-whitespace; and it either fits in the width or is a
single over-long word chunk of the input. -/
theorem wrapStepCore_spec (w : Nat) (ch : List Char) (t : List (List Char))
    (hword : WordChunk ch)
    (hok : ∀ x ∈ ch :: t, WordChunk x ∨ SpaceChunk x)
    (hchain : List.Chain' (fun a b => isWSChunk a ≠ isWSChunk b) (ch :: t)) :
    ∃ line rest,
      wrapStepCore w (ch :: t) = (some line, rest) ∧
      rest <:+ (ch :: t) ∧ rest.length < (ch :: t).length ∧
      (∃ c t2, line = c :: t2 ∧ isSp c = false) ∧
      (∃ c, line.getLast? = some c ∧ isSp c = false) ∧
      (line.length ≤ w ∨ (w < line.length ∧ line ∈ ch :: t)) := by
  rcases hc : ch with _ | ⟨hc0, hcrest⟩
  · exact absurd hc hword.1
  rw [← hc]
  by_cases hlen : 0 + ch.length ≤ w
  · -- head chunk fits: the greedy packed line is emitted
    have hp := packLine_cons_le w ch t 0 hlen
    have hp1 : (packLine w 0 (ch :: t)).1 = ch :: (packLine w (0 + ch.length) t).1 := hp.1
    set p := packLine w 0 (ch :: t) with hpdef
    have hp1ne : p.1 ≠ [] := by rw [hp1]; simp
    have happ : p.1 ++ p.2 = ch :: t := packLine_append w (ch :: t) 0
    have hhl : handleLongWord w p = p := handleLongWord_of_ne w p hp1ne
    rcases dropTrailingWS_cons_head ch (packLine w (0 + ch.length) t).1
      (isWSChunk_of_word hword) with ⟨t2, ht2⟩
    have hcur : dropTrailingWS p.1 = ch :: t2 := by rw [hp1]; exact ht2
    have hcurne : dropTrailingWS p.1 ≠ [] := by rw [hcur]; simp
    have hpre : p.1 <+: ch :: t := ⟨p.2, happ⟩
    have hokp : ∀ x ∈ p.1, WordChunk x ∨ SpaceChunk x := by
      intro x hx
      exact hok x (hpre.subset hx)
    have hchp : List.Chain' (fun a b => isWSChunk a ≠ isWSChunk b) p.1 :=
      hchain.prefix hpre
    refine ⟨(dropTrailingWS p.1).flatten, p.2, ?_, ⟨p.1, happ⟩, ?_, ?_, ?_, ?_⟩
    · rw [wrapStepCore_eq, ← hpdef, hhl, if_neg hcurne]
    · have hlen2 : p.1.length + p.2.length = (ch :: t).length := by
        rw [← happ]; simp
      have hge : 1 ≤ p.1.length := by rw [hp1]; simp
      simp only [List.length_cons] at hlen2 ⊢
      omega
    · rcases hc' : ch with _ | ⟨c0, cr⟩
      · exact absurd hc' hword.1
      · refine ⟨c0, cr ++ t2.flatten, ?_, ?_⟩
        · rw [hcur, hc']
          simp
        · exact hword.2 c0 (by rw [hc']; simp)
    · have hlast := dropTrailingWS_last_word p.1 hokp hchp
      rcases hlw : (dropTrailingWS p.1).getLast? with _ | lastch
      · rw [List.getLast?_eq_none_iff] at hlw
        exact absurd hlw hcurne
      · have hw := hlast lastch hlw
        have hfl := flatten_getLast?_of_last _ lastch hlw hw.1
        rcases hgl : lastch.getLast? with _ | c
        · rw [List.getLast?_eq_none_iff] at hgl
          exact absurd hgl hw.1
        · refine ⟨c, by rw [hfl, hgl], ?_⟩
          have hcmem : c ∈ lastch := by
            rcases List.getLast?_eq_some_iff.mp hgl with ⟨ys, hys⟩
            rw [hys]; simp
          exact hw.2 c hcmem
    · refine Or.inl ?_
      rcases packLine_sum w (ch :: t) 0 with h0 | h0
      · rw [← hpdef] at h0
        exact absurd h0 hp1ne
      · rw [← hpdef] at h0
        rw [sumLen_flatten]
        have := dropTrailingWS_sumLen_le p.1
        omega
  · -- head chunk longer than the width: emitted alone via the long-word path
    have hlt : w < ch.length := by omega
    have hp : packLine w 0 (ch :: t) = ([], ch :: t) := packLine_cons_gt w ch t 0 hlen
    have hhl : handleLongWord w (packLine w 0 (ch :: t)) = ([ch], t) := by
      rw [hp]
      simp only [handleLongWord]
      rw [if_pos ⟨hlt, trivial⟩]
    have hdt : dropTrailingWS [ch] = [ch] := by
      rw [dropTrailingWS]
      simp only [List.getLast?_singleton]
      rw [if_neg (by rw [isWSChunk_of_word hword]; simp)]
    refine ⟨ch, t, ?_, ⟨[ch], rfl⟩, by simp, ?_, ?_, ?_⟩
    · rw [wrapStepCore_eq, hhl]
      simp only [hdt]
      rw [if_neg (by simp : ¬([ch] = ([] : List (List Char))))]
      simp
    · exact ⟨hc0, hcrest, hc, hword.2 hc0 (by rw [hc]; simp)⟩
    · have hne := hword.1
      refine ⟨ch.getLast hne, List.getLast?_eq_getLast ch hne, ?_⟩
      exact hword.2 _ (List.getLast_mem hne)
    · exact Or.inr ⟨hlt, by simp⟩

theorem wrapStepCore_nil (w : Nat) : wrapStepCore w [] = (none, []) := rfl

theorem wrapChunksGo_nil (w fuel : Nat) (emitted : Bool) :
    wrapChunksGo w fuel emitted [] = [] := by
  cases fuel <;> rfl

theorem wrapChunksGo_cons (w fuel : Nat) (emitted : Bool) (c : List Char)
    (cs : List (List Char)) :
    wrapChunksGo w (fuel + 1) emitted (c :: cs) =
      match wrapStep w emitted (c :: cs) with
      | (some line, rest) => line :: wrapChunksGo w fuel true rest
      | (none, rest) => wrapChunksGo w fuel emitted rest := rfl

/-- A full outer-loop iteration on a well-formed non-empty chunk list whose
head is a word chunk unless a line was already emitted: either the iteration
is the final whitespace-only cleanup (no line, nothing left), or it emits a
well-formed line and strictly shrinks the chunk list. -/
theorem wrapStep_spec (w : Nat) (emitted : Bool) (c : List Char) (cs : List (List Char))
    (hok : ∀ x ∈ c :: cs, WordChunk x ∨ SpaceChunk x)
    (hchain : List.Chain' (fun a b => isWSChunk a ≠ isWSChunk b) (c :: cs))
    (hhd : emitted = false → WordChunk c) :
    wrapStep w emitted (c :: cs) = (none, []) ∨
    (∃ line rest, wrapStep w emitted (c :: cs) = (some line, rest) ∧
      rest <:+ (c :: cs) ∧ rest.length < (c :: cs).length ∧
      (∃ a t2, line = a :: t2 ∧ isSp a = false) ∧
      (∃ a, line.getLast? = some a ∧ isSp a = false) ∧
      (line.length ≤ w ∨ (w < line.length ∧ line ∈ c :: cs))) := by
  rw [wrapStep]
  by_cases hdrop : emitted = true ∧ isWSChunk c = true
  · rw [if_pos hdrop]
    rcases cs with _ | ⟨c2, cs2⟩
    · exact Or.inl (wrapStepCore_nil w)
    · have hrel : isWSChunk c ≠ isWSChunk c2 := (List.chain'_cons.mp hchain).1
      have hw2 : WordChunk c2 := by
        rcases hok c2 (by simp) with h | h
        · exact h
        · rw [hdrop.2, isWSChunk_of_space h] at hrel
          exact absurd rfl hrel
      rcases wrapStepCore_spec w c2 cs2 hw2 (fun x hx => hok x (by simp [hx]))
        (hchain.suffix ⟨[c], rfl⟩) with
        ⟨line, rest, heq, hsuf, hlt, hhead, hlast, hbound⟩
      refine Or.inr ⟨line, rest, heq, hsuf.trans ⟨[c], rfl⟩, ?_, hhead, hlast, ?_⟩
      · simp only [List.length_cons] at hlt ⊢
        omega
      · rcases hbound with h | ⟨h1, h2⟩
        · exact Or.inl h
        · exact Or.inr ⟨h1, by simp [h2]⟩
  · rw [if_neg hdrop]
    have hwc : WordChunk c := by
      rcases Bool.eq_false_or_eq_true emitted with he | he
      · rcases hok c (by simp) with h | h
        · exact h
        · exact absurd ⟨he, isWSChunk_of_space h⟩ hdrop
      · exact hhd he
    rcases wrapStepCore_spec w c cs hwc hok hchain with
      ⟨line, rest, heq, hsuf, hlt, hhead, hlast, hbound⟩
    exact Or.inr ⟨line, rest, heq, hsuf, hlt, hhead, hlast, hbound⟩

/-- Every line produced by the outer wrapping loop on well-formed chunks
begins and ends with a non-whitespace character, and either fits within the
width or is one over-long chunk of the input. -/
theorem wrapGo_spec (w : Nat) :
    ∀ (fuel : Nat) (chunks : List (List Char)) (emitted : Bool),
      chunks.length ≤ fuel →
      (∀ x ∈ chunks, WordChunk x ∨ SpaceChunk x) →
      List.Chain' (fun a b => isWSChunk a ≠ isWSChunk b) chunks →
      (emitted = false → ∀ ch t, chunks = ch :: t → WordChunk ch) →
      ∀ line ∈ wrapChunksGo w fuel emitted chunks,
        (∃ a t2, line = a :: t2 ∧ isSp a = false) ∧
        (∃ a, line.getLast? = some a ∧ isSp a = false) ∧
        (line.length ≤ w ∨ (w < line.length ∧ line ∈ chunks)) := by
  intro fuel
  induction fuel with
  | zero =>
    intro chunks emitted hlen _ _ _ line hline
    have hc0 : chunks = [] := List.length_eq_zero.mp (Nat.le_zero.mp hlen)
    subst hc0
    rw [wrapChunksGo_nil] at hline
    simp at hline
  | succ fuel ih =>
    intro chunks emitted hlen hok hchain hhd line hline
    rcases chunks with _ | ⟨c, cs⟩
    · rw [wrapChunksGo_nil] at hline
      simp at hline
    · rcases wrapStep_spec w emitted c cs hok hchain
        (fun he => hhd he c cs rfl) with hnone | ⟨l0, rest, heq, hsuf, hlt, hhead, hlast, hbound⟩
      · rw [wrapChunksGo_cons, hnone] at hline
        have hred : (match ((none : Option (List Char)), ([] : List (List Char))) with
            | (some line, rest) => line :: wrapChunksGo w fuel true rest
            | (none, rest) => wrapChunksGo w fuel emitted rest) =
            wrapChunksGo w fuel emitted [] := rfl
        rw [hred, wrapChunksGo_nil] at hline
        simp at hline
      · rw [wrapChunksGo_cons, heq] at hline
        have hred : (match (some l0, rest) with
            | (some line, rest) => line :: wrapChunksGo w fuel true rest
            | (none, rest) => wrapChunksGo w fuel emitted rest) =
            l0 :: wrapChunksGo w fuel true rest := rfl
        rw [hred] at hline
        rcases List.mem_cons.mp hline with h | h
        · subst h
          exact ⟨hhead, hlast, hbound⟩
        · have hres := ih rest true
            (by
              have := hlt
              simp only [List.length_cons] at this hlen
              omega)
            (fun x hx => hok x (hsuf.subset hx))
            (hchain.suffix hsuf)
            (by intro hcon; cases hcon)
            line h
          refine ⟨hres.1, hres.2.1, ?_⟩
          rcases hres.2.2 with hb | ⟨h1, h2⟩
          · exact Or.inl hb
          · exact Or.inr ⟨h1, hsuf.subset h2⟩

/-! ## Lifting the line properties through `wrap_text` -/

theorem dropWhile_head_not (l : List Char) (c : Char) (t : List Char)
    (h : l.dropWhile isSp = c :: t) : isSp c = false := by
  induction l with
  | nil => simp at h
  | cons a as ih =>
    rw [List.dropWhile_cons] at h
    by_cases ha : isSp a = true
    · exact ih (by rw [if_pos ha] at h; exact h)
    · rw [if_neg ha] at h
      cases h
      simpa using ha

theorem pyStrip_head (l : List Char) (c : Char) (t : List Char)
    (h : pyStrip l = c :: t) : isSp c = false := by
  have hpre : pyStrip l <+: l.dropWhile isSp := by
    rw [pyStrip]
    conv_rhs => rw [← List.reverse_reverse (List.dropWhile isSp l)]
    exact List.reverse_prefix.mpr (List.dropWhile_suffix isSp)
  rcases hpre with ⟨r, hr⟩
  rw [h] at hr
  exact dropWhile_head_not l c (t ++ r) hr.symm

theorem pyStrip_last (l : List Char) (c : Char)
    (h : (pyStrip l).getLast? = some c) : isSp c = false := by
  rw [pyStrip, List.getLast?_reverse] at h
  rcases hd : List.dropWhile isSp (l.dropWhile isSp).reverse with _ | ⟨a, t⟩
  · rw [hd] at h
    simp at h
  · rw [hd] at h
    have hac : a = c := by simpa using h
    rw [← hac]
    exact dropWhile_head_not _ a t hd

/-- `pyStrip` fixes any list whose two ends are non-whitespace. -/
theorem pyStrip_id_of_ends (l : List Char)
    (hh : ∀ c t, l = c :: t → isSp c = false)
    (hl : ∀ c, l.getLast? = some c → isSp c = false) :
    pyStrip l = l := by
  rcases l with _ | ⟨c, t⟩
  · rfl
  · have h1 : (c :: t).dropWhile isSp = c :: t := by
      rw [List.dropWhile_cons, if_neg (by rw [hh c t rfl]; simp)]
    have h2 : (c :: t).reverse.dropWhile isSp = (c :: t).reverse := by
      rcases hr : (c :: t).reverse with _ | ⟨a, s⟩
      · simp at hr
      · have ha : (c :: t).getLast? = some a := by
          rw [← List.head?_reverse, hr]
          rfl
        rw [List.dropWhile_cons, if_neg (by rw [hl a ha]; simp)]
    rw [pyStrip, h1, h2, List.reverse_reverse]

/-- `munge` keeps a non-whitespace head character in place. -/
theorem munge_cons_of_not_sp (c : Char) (t : List Char) (hc : isSp c = false) :
    ∃ t2, munge (c :: t) = c :: t2 := by
  have hnt : ¬ (c = '\t') := by
    intro he; rw [he] at hc; simp [isSp] at hc
  have hnn : ¬ (c = '\n' || c = '\r') = true := by
    intro he
    rcases Bool.or_eq_true_iff.mp he with h | h
    · rw [of_decide_eq_true h] at hc; simp [isSp] at hc
    · rw [of_decide_eq_true h] at hc; simp [isSp] at hc
  have he : expandTabsGo 0 (c :: t) = c :: expandTabsGo (0 + 1) t := by
    rw [expandTabsGo.eq_def]
    simp only
    rw [if_neg (by simpa using hnt), if_neg hnn]
  refine ⟨replaceWS (expandTabsGo (0 + 1) t), ?_⟩
  rw [munge, expandTabs, he]
  rw [replaceWS, List.map_cons, if_neg (by rw [hc]; simp)]
  rfl

theorem textwrapWrap_lines (width : Nat) (s : List Char)
    (hh : ∀ c t, s = c :: t → isSp c = false) :
    ∀ line ∈ textwrapWrap width s,
      (∃ a t2, line = a :: t2 ∧ isSp a = false) ∧
      (∃ a, line.getLast? = some a ∧ isSp a = false) ∧
      (line.length ≤ width ∨ (width < line.length ∧
        line ∈ splitChunks (munge s) ∧ isWSChunk line = false)) := by
  intro line hline
  simp only [textwrapWrap] at hline
  have hhd : (false : Bool) = false →
      ∀ ch t, splitChunks (munge s) = ch :: t → WordChunk ch := by
    intro _ ch t heq
    rcases hs : s with _ | ⟨c, s2⟩
    · rw [hs] at heq
      simp [munge, expandTabs, expandTabsGo, replaceWS, splitChunks] at heq
    · have hc : isSp c = false := hh c s2 hs
      rcases munge_cons_of_not_sp c s2 hc with ⟨t2, hm⟩
      rw [hs, hm] at heq
      rcases splitChunks_head c t2 with ⟨t3, rest3, h3⟩
      rw [h3] at heq
      injection heq with h1 h2
      subst h1
      have hmem : (c :: t3) ∈ splitChunks (munge (c :: s2)) := by
        rw [hm, h3]
        simp
      rcases splitChunks_chunks (munge (c :: s2)) _ hmem with hw | hw
      · exact hw
      · rw [hw.2 c (by simp)] at hc
        simp at hc
  have hspec := wrapGo_spec width (splitChunks (munge s)).length
    (splitChunks (munge s)) false (le_refl _) (splitChunks_chunks _)
    (splitChunks_chain _) hhd line hline
  refine ⟨hspec.1, hspec.2.1, ?_⟩
  rcases hspec.2.2 with h | ⟨h1, h2⟩
  · exact Or.inl h
  · refine Or.inr ⟨h1, h2, ?_⟩
    rcases hspec.1 with ⟨a, t2, heq, ha⟩
    rw [heq]
    simp only [isWSChunk, List.all_cons, ha]
    rfl

theorem wrapSub_lines (width : Nat) (sub : List Char) :
    ∀ line ∈ wrapSub width sub,
      line = [] ∨
      ((∃ a t2, line = a :: t2 ∧ isSp a = false) ∧
       (∃ a, line.getLast? = some a ∧ isSp a = false) ∧
       (line.length ≤ width ∨ (width < line.length ∧ line ∈ subTokens sub))) := by
  intro line hline
  simp only [wrapSub] at hline
  by_cases hs : pyStrip sub = []
  · rw [if_pos hs] at hline
    simp at hline
    exact Or.inl hline
  · rw [if_neg hs] at hline
    by_cases hw : textwrapWrap width (pyStrip sub) = []
    · rw [if_pos hw] at hline
      simp at hline
      exact Or.inl hline
    · rw [if_neg hw] at hline
      right
      have hprops := textwrapWrap_lines width (pyStrip sub)
        (fun c t h => pyStrip_head sub c t h) line hline
      refine ⟨hprops.1, hprops.2.1, ?_⟩
      rcases hprops.2.2 with h | ⟨h1, h2, h3⟩
      · exact Or.inl h
      · refine Or.inr ⟨h1, ?_⟩
        rw [subTokens]
        exact List.mem_filter.mpr ⟨h2, by simp [h3]⟩

theorem joinParas_mem : ∀ (ps : List (List (List Char))) (line : List Char),
    line ∈ joinParas ps → line = [] ∨ ∃ p ∈ ps, line ∈ p := by
  intro ps
  induction ps with
  | nil =>
    intro line h
    rw [joinParas] at h
    simp at h
  | cons p ps ih =>
    intro line h
    rcases ps with _ | ⟨q, qs⟩
    · rw [joinParas] at h
      exact Or.inr ⟨p, by simp, h⟩
    · have hj : joinParas (p :: q :: qs) = p ++ [[]] ++ joinParas (q :: qs) := rfl
      rw [hj] at h
      rcases List.mem_append.mp h with h1 | h1
      · rcases List.mem_append.mp h1 with h2 | h2
        · exact Or.inr ⟨p, by simp, h2⟩
        · simp at h2
          exact Or.inl h2
      · rcases ih line h1 with h2 | ⟨r, hr1, hr2⟩
        · exact Or.inl h2
        · exact Or.inr ⟨r, by simp [hr1], hr2⟩

/-- Every non-blank line of `wrap_text` begins and ends with non-whitespace
and fits the width unless it is a single over-long token of the text. -/
theorem wrapText_mem (width : Nat) (text : List Char) :
    ∀ line ∈ wrap_text width text,
      line = [] ∨
      ((∃ a t2, line = a :: t2 ∧ isSp a = false) ∧
       (∃ a, line.getLast? = some a ∧ isSp a = false) ∧
       (line.length ≤ width ∨ (width < line.length ∧ line ∈ tokensOf text))) := by
  intro line hline
  rw [wrap_text] at hline
  rcases joinParas_mem _ line hline with h | ⟨p, hp, hlp⟩
  · exact Or.inl h
  · rcases List.mem_map.mp hp with ⟨para, hpara, hpeq⟩
    rw [← hpeq, wrapParagraph] at hlp
    rcases List.mem_flatMap.mp hlp with ⟨sub, hsub, hlsub⟩
    rcases wrapSub_lines width sub line hlsub with h | ⟨hhead, hlast, hbound⟩
    · exact Or.inl h
    · refine Or.inr ⟨hhead, hlast, ?_⟩
      rcases hbound with h | ⟨h1, h2⟩
      · exact Or.inl h
      · refine Or.inr ⟨h1, ?_⟩
        rw [tokensOf]
        exact List.mem_flatMap.mpr ⟨para, hpara,
          List.mem_flatMap.mpr ⟨sub, hsub, h2⟩⟩

/-- C4: for every input text and positive width (the profile's
chars-per-line), every line produced by `wrap_text` has length at most the
width, except a line consisting of a single whitespace-delimited token whose
own length exceeds the width, which is emitted on its own line unmodified
(never split or hyphenated); formally such a line is itself one of the
text's tokens. -/
theorem c4_wrap_text_width_bound (text : List Char) (width : Nat) (_hw : 0 < width) :
    ∀ line ∈ wrap_text width text,
      line.length ≤ width ∨ (width < line.length ∧ line ∈ tokensOf text) := by
  intro line hline
  rcases wrapText_mem width text line hline with h | ⟨_, _, hbound⟩
  · rw [h]
    exact Or.inl (by simp)
  · exact hbound

theorem c4_witness :
    0 < 6 ∧ ∀ line ∈ wrap_text 6 "xy supercalifragilistic".toList,
      line.length ≤ 6 ∨ (6 < line.length ∧ line ∈ tokensOf "xy supercalifragilistic".toList) :=
  ⟨by decide, c4_wrap_text_width_bound "xy supercalifragilistic".toList 6 (by decide)⟩

/-- C10: for every input text and positive width, every line returned by
`wrap_text` carries no leading or trailing whitespace: stripping a line
(Python `str.strip`) leaves it unchanged, so indentation and trailing
spaces of the original text are never preserved. -/
theorem c10_wrap_text_lines_stripped (text : List Char) (width : Nat) (_hw : 0 < width) :
    ∀ line ∈ wrap_text width text, pyStrip line = line := by
  intro line hline
  rcases wrapText_mem width text line hline with h | ⟨hhead, hlast, _⟩
  · rw [h]
    rfl
  · refine pyStrip_id_of_ends line ?_ ?_
    · intro c t hct
      rcases hhead with ⟨a, t2, heq, ha⟩
      rw [hct] at heq
      injection heq with h1 _
      rw [h1]
      exact ha
    · intro c hc
      rcases hlast with ⟨a, hga, ha⟩
      rw [hc] at hga
      rw [Option.some_inj.mp hga]
      exact ha

theorem c10_witness :
    0 < 5 ∧ ∀ line ∈ wrap_text 5 "  hello   world  \t".toList, pyStrip line = line :=
  ⟨by decide, c10_wrap_text_lines_stripped "  hello   world  \t".toList 5 (by decide)⟩

/-! ## Idempotency store and pipeline claims -/

/-- C3: for a request id not yet in the store, `check_and_mark` returns
true on the first call, false on every subsequent call while the record is
present (in particular before its TTL elapses), and true again at a time
`t3` with `t3 - t1 > ttl` once `cleanup_expired` has removed the expired
record. -/
theorem c3_check_and_mark_ttl (s : DedupeStore) (id : String) (t1 t3 : Int)
    (hfresh : s.entries.any (fun e => e.1 = id) = false)
    (hexp : t3 - t1 > s.ttl_seconds) :
    (check_and_mark s id t1).1 = true
    ∧ (∀ t2, (check_and_mark (check_and_mark s id t1).2 id t2).1 = false)
    ∧ (check_and_mark (cleanup_expired (check_and_mark s id t1).2 t3).2 id t3).1 = true := by
  have h1 : check_and_mark s id t1 =
      (true, ⟨s.entries ++ [(id, t1)], s.ttl_seconds⟩) := by
    rw [check_and_mark, if_neg (by rw [hfresh]; simp)]
  have hmem : ∀ e ∈ s.entries, ¬ e.1 = id := by
    intro e he
    have := List.any_eq_false.mp hfresh e he
    simpa using this
  refine ⟨by rw [h1], ?_, ?_⟩
  · intro t2
    rw [h1, check_and_mark]
    rw [if_pos (by simp)]
  · rw [h1, cleanup_expired]
    simp only
    rw [check_and_mark]
    rw [if_neg ?hnone]
    case hnone =>
      intro hcon
      rcases List.any_eq_true.mp hcon with ⟨e, he, heq⟩
      rcases List.mem_filter.mp he with ⟨he2, hkeep⟩
      rcases List.mem_append.mp he2 with h3 | h3
      · exact absurd (of_decide_eq_true heq) (hmem e h3)
      · simp at h3
        rw [h3] at hkeep
        have : t3 - s.ttl_seconds ≤ t1 := by simpa using of_decide_eq_true hkeep
        omega

theorem c3_witness :
    ((DedupeStore.mk [] 86400).entries.any (fun e => e.1 = "job-1") = false
      ∧ (86500 : Int) - 0 > (DedupeStore.mk [] 86400).ttl_seconds)
    ∧ ((check_and_mark ⟨[], 86400⟩ "job-1" 0).1 = true
      ∧ (∀ t2, (check_and_mark (check_and_mark ⟨[], 86400⟩ "job-1" 0).2 "job-1" t2).1 = false)
      ∧ (check_and_mark (cleanup_expired (check_and_mark ⟨[], 86400⟩ "job-1" 0).2 86500).2
          "job-1" 86500).1 = true) :=
  ⟨⟨by decide, by decide⟩,
   c3_check_and_mark_ttl ⟨[], 86400⟩ "job-1" 0 86500 (by decide) (by decide)⟩

/-- C2: contrary to the specification, a transport failure does not leave
the request id unrecorded: `print_receipt` calls `check_and_mark` before
the transport write and never removes the record afterwards, so after a
failed print of request id "r1" the id is recorded as processed and a
resubmission is treated as a duplicate (`check_and_mark` returns false). -/
theorem c2_failed_print_still_marked :
    print_receipt (some ⟨[], 86400⟩) (some "r1") Option.none "hi".toList
      "2024-01-01 00:00:00".toList 5 (TransportOutcome.err "boom")
      = (HandlerResult.httpError 500 "Print failed: boom",
         some ⟨[("r1", 5)], 86400⟩)
    ∧ (check_and_mark ⟨[("r1", 5)], 86400⟩ "r1" 99).1 = false := by
  constructor
  · rfl
  · decide

/-! ## Receipt framing claims -/

theorem suffix_eq_of_length {l1 l2 L : List Nat} (h1 : l1 <:+ L) (h2 : l2 <:+ L)
    (hl : l1.length = l2.length) : l1 = l2 := by
  rcases h1 with ⟨u, hu⟩
  rcases h2 with ⟨v, hv⟩
  exact (List.append_inj' (hu.trans hv.symm) hl).2

theorem build_receipt_split (text ts : List Char) (idea_id : Option (List Char))
    (p : PrinterProfile) :
    build_receipt text idea_id ts p
      = (receiptPrefix ts p ++ idLineBytes idea_id ++ receiptBody text p)
        ++ (feedCmd p.feed_lines_before_cut ++ cutBytes p.cut_type) := by
  rw [build_receipt, receiptSuffix]
  simp [List.append_assoc]

/-- C6 (amended): every receipt begins with the initialise sequence ESC @,
and ends with the feed command for `feed_lines_before_cut` followed by
exactly the cut sequence selected by `cut_type`; with cut_type "none" no
cut sequence is appended — the output ends with the feed command and does
not end with either cut sequence (though the encoded idea text itself may
still contain cut-sequence bytes elsewhere). -/
theorem c6_receipt_frame (text ts : List Char) (idea_id : Option (List Char))
    (p : PrinterProfile) (_hfeed : p.feed_lines_before_cut ≤ 255) :
    INIT <+: build_receipt text idea_id ts p
    ∧ (p.cut_type = CutType.full →
        feedCmd p.feed_lines_before_cut ++ CUT_FULL <:+ build_receipt text idea_id ts p)
    ∧ (p.cut_type = CutType.partial' →
        feedCmd p.feed_lines_before_cut ++ CUT_PARTIAL <:+ build_receipt text idea_id ts p)
    ∧ (p.cut_type = CutType.none →
        feedCmd p.feed_lines_before_cut <:+ build_receipt text idea_id ts p
        ∧ ¬ (CUT_FULL <:+ build_receipt text idea_id ts p)
        ∧ ¬ (CUT_PARTIAL <:+ build_receipt text idea_id ts p)) := by
  refine ⟨?_, ?_, ?_, ?_⟩
  · rw [build_receipt, receiptPrefix]
    simp only [List.append_assoc]
    exact List.prefix_append _ _
  · intro hct
    rw [build_receipt_split, hct, cutBytes]
    exact List.suffix_append _ _
  · intro hct
    rw [build_receipt_split, hct, cutBytes]
    exact List.suffix_append _ _
  · intro hct
    have hsfx : feedCmd p.feed_lines_before_cut <:+ build_receipt text idea_id ts p := by
      rw [build_receipt_split, hct, cutBytes]
      rw [List.append_nil]
      exact List.suffix_append _ _
    refine ⟨hsfx, ?_, ?_⟩
    · intro hcut
      have := suffix_eq_of_length hcut hsfx (by rfl)
      simp [CUT_FULL, feedCmd, GS, ESC] at this
    · intro hcut
      have := suffix_eq_of_length hcut hsfx (by rfl)
      simp [CUT_PARTIAL, feedCmd, GS, ESC] at this

theorem c6_witness :
    ((PrinterProfile.mk 30 CutType.full 4).feed_lines_before_cut ≤ 255)
    ∧ (INIT <+: build_receipt "idea".toList Option.none "2024".toList
        (PrinterProfile.mk 30 CutType.full 4)
      ∧ (feedCmd 4 ++ CUT_FULL <:+ build_receipt "idea".toList Option.none "2024".toList
          (PrinterProfile.mk 30 CutType.full 4))) :=
  ⟨by decide,
   (c6_receipt_frame "idea".toList "2024".toList Option.none
      (PrinterProfile.mk 30 CutType.full 4) (by decide)).1,
   (c6_receipt_frame "idea".toList "2024".toList Option.none
      (PrinterProfile.mk 30 CutType.full 4) (by decide)).2.1 rfl⟩

/-- C6 counterexample: with cut_type "none" the claim says the output
contains no cut sequence, but the idea text bytes themselves may encode
one: printing the idea "a\x1dV\x00" puts GS V 0 — the full-cut sequence —
into the receipt even though no cut command is appended. -/
theorem c6_counterexample_cut_bytes_in_text :
    CUT_FULL <:+: build_receipt "a\x1dV\x00".toList Option.none
      "2024-01-01 00:00:00".toList (PrinterProfile.mk 30 CutType.none 4) := by
  decide

/-- C9 (amended): the receipt contains the inserted segment
`"ID: <ideaId>"` plus newline, between the timestamp line and the blank
line, if and only if the ideaId is supplied, non-null and non-empty; when
the ideaId is null or the empty string (both falsy in Python) the segment
is absent and the receipt equals the id-free concatenation. -/
theorem c9_id_line_iff_nonempty (text ts : List Char) (p : PrinterProfile)
    (idea_id : Option (List Char)) :
    (∀ s, idea_id = some s → s ≠ [] →
      build_receipt text idea_id ts p
        = receiptPrefix ts p ++ (encodeStr ("ID: ".toList ++ s) ++ [10])
          ++ receiptSuffix text p)
    ∧ ((idea_id = Option.none ∨ idea_id = some []) →
      build_receipt text idea_id ts p = receiptPrefix ts p ++ receiptSuffix text p) := by
  constructor
  · intro s hs hne
    subst hs
    rw [build_receipt, idLineBytes]
    rw [if_neg hne]
  · intro h
    rcases h with h | h
    · subst h
      rw [build_receipt, idLineBytes]
      simp
    · subst h
      rw [build_receipt, idLineBytes]
      simp

theorem c9_witness :
    ((some "A".toList : Option (List Char)) = some "A".toList ∧ "A".toList ≠ []) ∧
    build_receipt "x".toList (some "A".toList) "t".toList
        (PrinterProfile.mk 30 CutType.full 4)
      = receiptPrefix "t".toList (PrinterProfile.mk 30 CutType.full 4)
        ++ (encodeStr ("ID: ".toList ++ "A".toList) ++ [10])
        ++ receiptSuffix "x".toList (PrinterProfile.mk 30 CutType.full 4) :=
  ⟨⟨rfl, by decide⟩,
   (c9_id_line_iff_nonempty "x".toList "t".toList (PrinterProfile.mk 30 CutType.full 4)
      (some "A".toList)).1 "A".toList rfl (by decide)⟩

/-- C9 counterexample: the claim reads "present (supplied and non-null)";
the empty string is supplied and non-null, yet Python's `if idea_id:` is
false for it, so `build_receipt` emits no ID line at all: the bytes of
"ID:" occur nowhere in the receipt built with `idea_id = some ""`. -/
theorem c9_counterexample_empty_id :
    ¬ ([73, 68, 58] <:+: build_receipt "x".toList (some [])
        "2024-01-01 00:00:00".toList (PrinterProfile.mk 30 CutType.full 4)) := by
  decide

/-! ## Integer printing and parsing round-trip -/

theorem digitChar_isDigit (d : Nat) : isDigit (digitChar d) = true := by
  unfold digitChar
  split_ifs <;> decide

theorem digitChar_val (d : Nat) (h : d < 10) : (digitChar d).toNat - 48 = d := by
  interval_cases d <;> decide

theorem digitChar_ne_sign (d : Nat) :
    digitChar d ≠ '-' ∧ digitChar d ≠ '+' := by
  unfold digitChar
  split_ifs <;> exact ⟨by decide, by decide⟩

theorem digitsVal_append (l : List Char) (c : Char) :
    digitsVal (l ++ [c]) = digitsVal l * 10 + (c.toNat - 48) := by
  rw [digitsVal, List.foldl_append]
  rfl

theorem natDigitsGo_zero (fuel : Nat) : natDigitsGo fuel 0 = [] := by
  cases fuel
  · rfl
  · rw [natDigitsGo, if_pos rfl]

theorem natDigitsGo_spec : ∀ (fuel n : Nat), n ≠ 0 → n ≤ fuel →
    natDigitsGo fuel n ≠ [] ∧ (∀ c ∈ natDigitsGo fuel n, isDigit c = true) ∧
    digitsVal (natDigitsGo fuel n) = n := by
  intro fuel
  induction fuel with
  | zero =>
    intro n h0 hle
    exact absurd (Nat.le_zero.mp hle) h0
  | succ fuel ih =>
    intro n h0 hle
    rw [natDigitsGo, if_neg h0]
    by_cases hq : n / 10 = 0
    · rw [hq, natDigitsGo_zero, List.nil_append]
      have h10 : n % 10 < 10 := Nat.mod_lt _ (by omega)
      refine ⟨by simp, ?_, ?_⟩
      · intro c hc
        simp at hc
        rw [hc]
        exact digitChar_isDigit _
      · have hv := digitChar_val (n % 10) h10
        have hn : n % 10 = n := by omega
        simp [digitsVal]
        omega
    · have hrec := ih (n / 10) hq (by omega)
      refine ⟨by simp, ?_, ?_⟩
      · intro c hc
        rcases List.mem_append.mp hc with h | h
        · exact hrec.2.1 c h
        · simp at h
          rw [h]
          exact digitChar_isDigit _
      · rw [digitsVal_append, hrec.2.2, digitChar_val _ (Nat.mod_lt _ (by omega))]
        omega

theorem natStr_spec (n : Nat) :
    natStr n ≠ [] ∧ (∀ c ∈ natStr n, isDigit c = true) ∧ digitsVal (natStr n) = n := by
  by_cases h : n = 0
  · subst h
    exact ⟨by decide, by decide, by decide⟩
  · rw [natStr, if_neg h]
    exact natDigitsGo_spec n n h (le_refl _)

theorem parseNatDigits_natStr (n : Nat) : parseNatDigits (natStr n) = some n := by
  have hs := natStr_spec n
  rw [parseNatDigits, if_pos ⟨hs.1, List.all_eq_true.mpr hs.2.1⟩, hs.2.2]

theorem isDigit_ne_sign (c : Char) (h : isDigit c = true) : ¬ c = '-' ∧ ¬ c = '+' := by
  constructor
  · intro he
    rw [he] at h
    simp [isDigit] at h
  · intro he
    rw [he] at h
    simp [isDigit] at h

theorem pyInt_intStr (i : Int) : pyInt (intStr i) = some i := by
  by_cases hneg : i < 0
  · rw [intStr, if_pos hneg]
    have h1 : pyInt ('-' :: natStr i.natAbs)
        = (parseNatDigits (natStr i.natAbs)).map (fun n => -(n : Int)) := rfl
    rw [h1, parseNatDigits_natStr]
    have h2 : (some i.natAbs).map (fun n => -(n : Int)) = some (-(i.natAbs : Int)) := rfl
    rw [h2]
    congr 1
    omega
  · rw [intStr, if_neg hneg]
    have hs := natStr_spec i.natAbs
    rcases hc : natStr i.natAbs with _ | ⟨c, rest⟩
    · exact absurd hc hs.1
    · have hcd : isDigit c = true := hs.2.1 c (by rw [hc]; simp)
      have hsign := isDigit_ne_sign c hcd
      have h1 : pyInt (c :: rest)
          = if c = '-' then (parseNatDigits rest).map (fun n => -(n : Int))
            else if c = '+' then (parseNatDigits rest).map (fun n => (n : Int))
            else (parseNatDigits (c :: rest)).map (fun n => (n : Int)) := rfl
      rw [h1, if_neg hsign.1, if_neg hsign.2, ← hc, parseNatDigits_natStr]
      have h2 : (some i.natAbs).map (fun n => (n : Int)) = some ((i.natAbs : Int)) := rfl
      rw [h2]
      congr 1
      omega

theorem intStr_ne_nil (i : Int) : intStr i ≠ [] := by
  rw [intStr]
  by_cases h : i < 0
  · rw [if_pos h]
    simp
  · rw [if_neg h]
    exact (natStr_spec i.natAbs).1

/-! ## Hex digests and verification behaviour -/

theorem hexDigit_ascii (n : Nat) : (hexDigit n).toNat < 128 := by
  rw [hexDigit]
  by_cases h : n < 16
  · interval_cases n <;> decide
  · rw [List.getD_eq_default]
    · decide
    · have hl : hexChars.length = 16 := by decide
      omega

theorem toHex_ascii (bytes : List Nat) : isAsciiStr (toHex bytes) = true := by
  rw [isAsciiStr, List.all_eq_true]
  intro c hc
  rw [toHex] at hc
  rcases List.mem_flatMap.mp hc with ⟨b, _, hcb⟩
  simp at hcb
  rcases hcb with h | h <;> rw [h] <;> exact decide_eq_true (hexDigit_ascii _)

theorem foldl_compress_length (bs : List (List Nat)) :
    ∀ ds : List Nat, ds.length = 8 → (bs.foldl sha256Compress ds).length = 8 := by
  induction bs with
  | nil =>
    intro ds h
    simpa using h
  | cons b bs ih =>
    intro ds h
    rw [List.foldl_cons]
    exact ih _ (by simp [sha256Compress])

theorem sha256_ne_nil (msg : List Nat) : sha256 msg ≠ [] := by
  simp only [sha256]
  have hlen := foldl_compress_length (toBlocks (bytesToWords (sha256Pad msg)))
    sha256H0 (by decide)
  rcases hd : (toBlocks (bytesToWords (sha256Pad msg))).foldl sha256Compress sha256H0 with
    _ | ⟨d, rest⟩
  · rw [hd] at hlen
    simp at hlen
  · simp [wordBytes]

theorem hmacHex_ne_nil (key msg : List Nat) : hmacHex key msg ≠ [] := by
  rw [hmacHex]
  have hs : hmacSha256 key msg ≠ [] := by
    simp only [hmacSha256]
    exact sha256_ne_nil _
  rcases hb : hmacSha256 key msg with _ | ⟨b, t⟩
  · exact absurd hb hs
  · simp [toHex]

theorem hmacHex_ascii (key msg : List Nat) : isAsciiStr (hmacHex key msg) = true := by
  rw [hmacHex]
  exact toHex_ascii _

theorem verify_signature_parse (body : List Nat) (sig secret : List Char) (ts w now : Int)
    (hsec : secret ≠ []) (hsig : sig ≠ []) :
    verify_signature body sig (intStr ts) secret w now
      = verifyParsed body sig (intStr ts) secret w now ts := by
  rw [verify_signature, if_neg hsec, if_neg hsig, if_neg (intStr_ne_nil ts), pyInt_intStr]

theorem verifyParsed_tooOld (body : List Nat) (sig tstr secret : List Char) (ts w now : Int)
    (hage : (((now - ts).natAbs : Nat) : Int) > w) :
    verifyParsed body sig tstr secret w now ts
      = some ⟨false, some (tooOldMsg (now - ts).natAbs w)⟩ := by
  simp only [verifyParsed]
  rw [if_pos hage]

theorem verifyParsed_fresh (body : List Nat) (sig tstr secret : List Char) (ts w now : Int)
    (hage : ¬ (((now - ts).natAbs : Nat) : Int) > w) :
    verifyParsed body sig tstr secret w now ts
      = (compare_digest sig (hmacHex (utf8Bytes secret) (utf8Bytes tstr ++ body))).map
          (fun ok =>
            if ¬ (ok = true) then ⟨false, some "Invalid signature".toList⟩
            else ⟨true, Option.none⟩) := by
  simp only [verifyParsed]
  rw [if_neg hage]

theorem invalid_ne_tooOldMsg (age : Nat) (w : Int) :
    "Invalid signature".toList ≠ tooOldMsg age w := by
  intro h
  have h1 : ("Invalid signature".toList).head? = some 'I' := rfl
  have h2 : (tooOldMsg age w).head? = some 'T' := rfl
  rw [h, h2] at h1
  cases h1

theorem verifyParsed_compared (body : List Nat) (sig tstr secret : List Char) (ts w now : Int)
    (hage : ¬ (((now - ts).natAbs : Nat) : Int) > w)
    (hascii : isAsciiStr sig = true) :
    verifyParsed body sig tstr secret w now ts
      = if sig = hmacHex (utf8Bytes secret) (utf8Bytes tstr ++ body)
        then some ⟨true, Option.none⟩
        else some ⟨false, some "Invalid signature".toList⟩ := by
  rw [verifyParsed_fresh body sig tstr secret ts w now hage]
  rw [compare_digest, if_pos (by simp [hascii, hmacHex_ascii])]
  by_cases heq : sig = hmacHex (utf8Bytes secret) (utf8Bytes tstr ++ body)
  · rw [if_pos heq, decide_eq_true heq, Option.map_some']
    simp
  · rw [if_neg heq, decide_eq_false heq, Option.map_some']
    simp

/-- C7: with the secret configured and a signature supplied, verification
fails with the "Timestamp too old" reason exactly when the timestamp's
absolute distance from the current time exceeds the window, and
symmetrically so: a timestamp `d` seconds in the past and one `d` seconds
in the future (with `d` beyond the window) are both rejected with the same
single "too old" reason. -/
theorem c7_timestamp_window (body : List Nat) (sig secret : List Char) (ts w now : Int)
    (hsec : secret ≠ []) (hsig : sig ≠ []) :
    (verify_signature body sig (intStr ts) secret w now
        = some ⟨false, some (tooOldMsg (now - ts).natAbs w)⟩
      ↔ (((now - ts).natAbs : Nat) : Int) > w)
    ∧ (∀ d : Nat, ((d : Nat) : Int) > w →
        verify_signature body sig (intStr (now - (d : Int))) secret w now
          = some ⟨false, some (tooOldMsg d w)⟩
        ∧ verify_signature body sig (intStr (now + (d : Int))) secret w now
          = some ⟨false, some (tooOldMsg d w)⟩) := by
  have hmain : ∀ ts2 : Int, (((now - ts2).natAbs : Nat) : Int) > w →
      verify_signature body sig (intStr ts2) secret w now
        = some ⟨false, some (tooOldMsg (now - ts2).natAbs w)⟩ := by
    intro ts2 h
    rw [verify_signature_parse body sig secret ts2 w now hsec hsig,
        verifyParsed_tooOld body sig (intStr ts2) secret ts2 w now h]
  refine ⟨⟨?_, fun h => hmain ts h⟩, ?_⟩
  · intro h
    by_contra hage
    rw [verify_signature_parse body sig secret ts w now hsec hsig,
        verifyParsed_fresh body sig (intStr ts) secret ts w now hage] at h
    rcases hcd : compare_digest sig (hmacHex (utf8Bytes secret)
        (utf8Bytes (intStr ts) ++ body)) with _ | ok
    · rw [hcd, Option.map_none'] at h
      cases h
    · rw [hcd, Option.map_some'] at h
      by_cases hok : ok = true
      · rw [if_neg (by simp [hok])] at h
        simp at h
      · rw [if_pos (by simp [hok])] at h
        simp at h
        exact invalid_ne_tooOldMsg (now - ts).natAbs w h
  · intro d hd
    constructor
    · have habs : (now - (now - (d : Int))).natAbs = d := by omega
      have hres := hmain (now - (d : Int)) (by rw [habs]; exact hd)
      rw [habs] at hres
      exact hres
    · have habs : (now - (now + (d : Int))).natAbs = d := by omega
      have hres := hmain (now + (d : Int)) (by rw [habs]; exact hd)
      rw [habs] at hres
      exact hres

theorem c7_witness :
    (("k".toList : List Char) ≠ [] ∧ ("x".toList : List Char) ≠ []
      ∧ (((400 : Nat) : Int) > 300))
    ∧ verify_signature [7] "x".toList (intStr ((1000 : Int) - (400 : Int)))
        "k".toList 300 1000 = some ⟨false, some (tooOldMsg 400 300)⟩ :=
  ⟨⟨by decide, by decide, by decide⟩,
   ((c7_timestamp_window [7] "x".toList "k".toList 0 300 1000
      (by decide) (by decide)).2 400 (by decide)).1⟩

theorem c8_counterexample_nonascii_signature :
    verify_signature [] ['é'] "0".toList "k".toList 300 0 = Option.none := by
  decide

/-- C8 (amended): whenever the supplied signature string is ASCII (so
`hmac.compare_digest` does not raise `TypeError`), `verify_signature`
returns a result for every input — either success with no error message
or failure with a reason string — rather than raising. -/
theorem c8_verify_total_of_ascii (body : List Nat) (sig tstr secret : List Char)
    (w now : Int) (hascii : isAsciiStr sig = true) :
    verify_signature body sig tstr secret w now = some ⟨true, Option.none⟩
    ∨ ∃ e, verify_signature body sig tstr secret w now = some ⟨false, some e⟩ := by
  rw [verify_signature]
  by_cases h1 : secret = []
  · rw [if_pos h1]; exact Or.inr ⟨_, rfl⟩
  rw [if_neg h1]
  by_cases h2 : sig = []
  · rw [if_pos h2]; exact Or.inr ⟨_, rfl⟩
  rw [if_neg h2]
  by_cases h3 : tstr = []
  · rw [if_pos h3]; exact Or.inr ⟨_, rfl⟩
  rw [if_neg h3]
  rcases hp : pyInt tstr with _ | ts
  · exact Or.inr ⟨_, rfl⟩
  · show verifyParsed body sig tstr secret w now ts = some ⟨true, Option.none⟩
      ∨ ∃ e, verifyParsed body sig tstr secret w now ts = some ⟨false, some e⟩
    by_cases hage : (((now - ts).natAbs : Nat) : Int) > w
    · rw [verifyParsed_tooOld body sig tstr secret ts w now hage]
      exact Or.inr ⟨_, rfl⟩
    · rw [verifyParsed_compared body sig tstr secret ts w now hage hascii]
      by_cases heq : sig = hmacHex (utf8Bytes secret) (utf8Bytes tstr ++ body)
      · rw [if_pos heq]; exact Or.inl rfl
      · rw [if_neg heq]; exact Or.inr ⟨_, rfl⟩

theorem c8_witness :
    isAsciiStr "x".toList = true
    ∧ (verify_signature [] "x".toList "t".toList "k".toList 300 0
        = some ⟨true, Option.none⟩
      ∨ ∃ e, verify_signature [] "x".toList "t".toList "k".toList 300 0
        = some ⟨false, some e⟩) :=
  ⟨by decide,
   c8_verify_total_of_ascii [] "x".toList "t".toList "k".toList 300 0 (by decide)⟩

/-- C1: a request signed with `generate_signature` verifies successfully
(timestamp within the window, secret configured); tampering with the body
or using a different secret makes verification fail with the
"Invalid signature" error, provided the recomputed HMAC hex digest indeed
differs from the original signature (HMAC collision-freeness, assumed as a
hypothesis and checked concretely in the witness). -/
theorem c1_hmac_roundtrip_and_tamper (body body2 : List Nat)
    (secret secret2 : List Char) (ts w now : Int)
    (hsec : secret ≠ []) (hsec2 : secret2 ≠ [])
    (hw : ¬ (((now - ts).natAbs : Nat) : Int) > w)
    (htamper : hmacHex (utf8Bytes secret) (utf8Bytes (intStr ts) ++ body2)
        ≠ generate_signature body ts secret)
    (hkey : hmacHex (utf8Bytes secret2) (utf8Bytes (intStr ts) ++ body)
        ≠ generate_signature body ts secret) :
    verify_signature body (generate_signature body ts secret) (intStr ts) secret w now
      = some ⟨true, Option.none⟩
    ∧ verify_signature body2 (generate_signature body ts secret) (intStr ts) secret w now
      = some ⟨false, some "Invalid signature".toList⟩
    ∧ verify_signature body (generate_signature body ts secret) (intStr ts) secret2 w now
      = some ⟨false, some "Invalid signature".toList⟩ := by
  have hgenne : generate_signature body ts secret ≠ [] := by
    rw [generate_signature]; exact hmacHex_ne_nil _ _
  have hgascii : isAsciiStr (generate_signature body ts secret) = true := by
    rw [generate_signature]; exact hmacHex_ascii _ _
  refine ⟨?_, ?_, ?_⟩
  · rw [verify_signature_parse body _ secret ts w now hsec hgenne,
        verifyParsed_compared body _ (intStr ts) secret ts w now hw hgascii,
        if_pos (by rw [generate_signature])]
  · rw [verify_signature_parse body2 _ secret ts w now hsec hgenne,
        verifyParsed_compared body2 _ (intStr ts) secret ts w now hw hgascii,
        if_neg (fun he => htamper he.symm)]
  · rw [verify_signature_parse body _ secret2 ts w now hsec2 hgenne,
        verifyParsed_compared body _ (intStr ts) secret2 ts w now hw hgascii,
        if_neg (fun he => hkey he.symm)]

theorem c1_witness :
    (("k".toList : List Char) ≠ [] ∧ ("j".toList : List Char) ≠ []
      ∧ ¬ ((((5 : Int) - 5).natAbs : Int) > 300)
      ∧ hmacHex (utf8Bytes "k".toList) (utf8Bytes (intStr 5) ++ [1])
          ≠ generate_signature [0] 5 "k".toList
      ∧ hmacHex (utf8Bytes "j".toList) (utf8Bytes (intStr 5) ++ [0])
          ≠ generate_signature [0] 5 "k".toList)
    ∧ (verify_signature [0] (generate_signature [0] 5 "k".toList) (intStr 5)
          "k".toList 300 5 = some ⟨true, Option.none⟩
      ∧ verify_signature [1] (generate_signature [0] 5 "k".toList) (intStr 5)
          "k".toList 300 5 = some ⟨false, some "Invalid signature".toList⟩
      ∧ verify_signature [0] (generate_signature [0] 5 "k".toList) (intStr 5)
          "j".toList 300 5 = some ⟨false, some "Invalid signature".toList⟩) :=
  ⟨⟨by decide, by decide, by decide, by decide, by decide⟩,
   c1_hmac_roundtrip_and_tamper [0] [1] "k".toList "j".toList 5 300 5
     (by decide) (by decide) (by decide) (by decide) (by decide)⟩

/-! ## Round-trip of wrapping for single-spaced text -/

theorem spaced_nil : spaced [] = [] := rfl

theorem spaced_single (x : List Char) : spaced [x] = [x] := rfl

theorem spaced_cons_cons (x y : List Char) (t : List (List Char)) :
    spaced (x :: y :: t) = x :: [' '] :: spaced (y :: t) := rfl

theorem joinWS_single (x : List Char) : joinWS [x] = x := by
  simp [joinWS]

theorem joinWS_cons_ne (x : List Char) (t : List (List Char)) (ht : t ≠ []) :
    joinWS (x :: t) = x ++ ' ' :: joinWS t := by
  rcases t with _ | ⟨y, ys⟩
  · exact absurd rfl ht
  · have h : List.intersperse [' '] (x :: y :: ys)
        = x :: [' '] :: List.intersperse [' '] (y :: ys) := rfl
    rw [joinWS, h]
    simp [joinWS]

theorem joinWS_ne_nil (x : List Char) (t : List (List Char)) (hx : x ≠ []) :
    joinWS (x :: t) ≠ [] := by
  rcases t with _ | ⟨y, ys⟩
  · rw [joinWS_single]; exact hx
  · rw [joinWS_cons_ne x (y :: ys) (by simp)]
    rcases x with _ | ⟨c, cr⟩
    · exact absurd rfl hx
    · simp

theorem joinWS_append_ne : ∀ (a : List (List Char)), a ≠ [] →
    ∀ (b : List (List Char)), b ≠ [] →
      joinWS (a ++ b) = joinWS a ++ ' ' :: joinWS b := by
  intro a
  induction a with
  | nil => intro ha; exact absurd rfl ha
  | cons x t ih =>
    intro _ b hb
    rcases t with _ | ⟨y, ys⟩
    · rw [List.singleton_append, joinWS_cons_ne x b hb, joinWS_single]
    · rw [List.cons_append, joinWS_cons_ne x (y :: ys ++ b) (by simp),
          joinWS_cons_ne x (y :: ys) (by simp), ih (by simp) b hb]
      simp

theorem joinWS_groups : ∀ (gs : List (List (List Char))), (∀ g ∈ gs, g ≠ []) →
    joinWS (gs.map (fun g => joinWS g)) = joinWS gs.flatten := by
  intro gs
  induction gs with
  | nil => intro _; rfl
  | cons g t ih =>
    intro h
    have hg : g ≠ [] := h g (by simp)
    have ht := ih (fun x hx => h x (by simp [hx]))
    by_cases hte : t = []
    · subst hte
      simp only [List.map_cons, List.map_nil, List.flatten_cons, List.flatten_nil,
        List.append_nil]
      exact joinWS_single (joinWS g)
    · have htf : t.flatten ≠ [] := by
        rcases t with _ | ⟨g2, t2⟩
        · exact absurd rfl hte
        · have hg2 : g2 ≠ [] := h g2 (by simp)
          simp only [List.flatten_cons]
          intro hcon
          exact hg2 (List.append_eq_nil.mp hcon).1
      rw [List.map_cons, joinWS_cons_ne _ _ (by simp [hte]), ht,
          List.flatten_cons, joinWS_append_ne g hg t.flatten htf]

theorem joinWS_flatMap_congr (f g : List Char → List (List Char)) :
    ∀ (l : List (List Char)),
      (∀ x ∈ l, joinWS (f x) = joinWS (g x) ∧ (f x = [] ↔ g x = [])) →
      joinWS (l.flatMap f) = joinWS (l.flatMap g) := by
  intro l
  induction l with
  | nil => intro _; rfl
  | cons x t ih =>
    intro h
    have hx := h x (by simp)
    have ht := ih (fun y hy => h y (by simp [hy]))
    rw [List.flatMap_cons, List.flatMap_cons]
    by_cases hfx : f x = []
    · have hgx : g x = [] := (hx.2).mp hfx
      rw [hfx, hgx, List.nil_append, List.nil_append, ht]
    · have hgx : g x ≠ [] := fun hg => hfx ((hx.2).mpr hg)
      by_cases hft : t.flatMap f = []
      · have hgt : t.flatMap g = [] := by
          rw [List.flatMap_eq_nil_iff] at hft ⊢
          intro y hy
          exact ((h y (by simp [hy])).2).mp (hft y hy)
        rw [hft, hgt, List.append_nil, List.append_nil, hx.1]
      · have hgt : t.flatMap g ≠ [] := by
          intro hcon
          apply hft
          rw [List.flatMap_eq_nil_iff] at hcon ⊢
          intro y hy
          exact ((h y (by simp [hy])).2).mpr (hcon y hy)
        rw [joinWS_append_ne (f x) hfx (t.flatMap f) hft,
            joinWS_append_ne (g x) hgx (t.flatMap g) hgt, hx.1, ht]

theorem spaced_len : ∀ (t : List (List Char)) (x : List Char),
    (spaced (x :: t)).length = 2 * t.length + 1 := by
  intro t
  induction t with
  | nil => intro x; rfl
  | cons y ys ih =>
    intro x
    rw [spaced_cons_cons]
    have h2 := ih y
    simp only [List.length_cons] at h2 ⊢
    omega

theorem mem_spaced : ∀ (ws : List (List Char)) (x : List Char),
    x ∈ spaced ws → x ∈ ws ∨ x = [' '] := by
  intro ws
  induction ws with
  | nil => intro x hx; exact absurd hx (by simp [spaced_nil])
  | cons a t ih =>
    intro x hx
    rcases t with _ | ⟨b, t2⟩
    · rw [spaced_single] at hx
      simp at hx
      exact Or.inl (by simp [hx])
    · rw [spaced_cons_cons] at hx
      rcases List.mem_cons.mp hx with h | h
      · exact Or.inl (by simp [h])
      · rcases List.mem_cons.mp h with h2 | h2
        · exact Or.inr h2
        · rcases ih x h2 with h3 | h3
          · exact Or.inl (List.mem_cons_of_mem a h3)
          · exact Or.inr h3

theorem pyWordsGo_words : ∀ (l cur : List Char), (∀ c ∈ cur, isSp c = false) →
    ∀ tok ∈ pyWordsGo cur l, WordChunk tok := by
  intro l
  induction l with
  | nil =>
    intro cur hcur tok htok
    rw [pyWordsGo] at htok
    by_cases hc : cur = []
    · rw [if_pos hc] at htok; simp at htok
    · rw [if_neg hc] at htok
      simp at htok
      subst htok
      exact ⟨by simpa using hc, fun c hc2 => hcur c (by simpa using hc2)⟩
  | cons c cs ih =>
    intro cur hcur tok htok
    rw [pyWordsGo] at htok
    by_cases hsp : isSp c = true
    · rw [if_pos hsp] at htok
      by_cases hc : cur = []
      · rw [if_pos hc] at htok
        exact ih [] (by simp) tok htok
      · rw [if_neg hc] at htok
        rcases List.mem_cons.mp htok with h | h
        · subst h
          exact ⟨by simpa using hc, fun c2 hc2 => hcur c2 (by simpa using hc2)⟩
        · exact ih [] (by simp) tok h
    · rw [if_neg hsp] at htok
      refine ih (c :: cur) ?_ tok htok
      intro c2 hc2
      rcases List.mem_cons.mp hc2 with h | h
      · subst h; simpa using hsp
      · exact hcur c2 h

theorem pyWords_words (l : List Char) : ∀ tok ∈ pyWords l, WordChunk tok :=
  pyWordsGo_words l [] (by simp)

theorem pyWordsGo_sep : ∀ (a cur : List Char) (s : Char) (b : List Char),
    isSp s = true →
    pyWordsGo cur (a ++ s :: b) = pyWordsGo cur a ++ pyWordsGo [] b := by
  intro a
  induction a with
  | nil =>
    intro cur s b hs
    rw [List.nil_append]
    conv_lhs => rw [pyWordsGo, if_pos hs]
    conv_rhs => rw [pyWordsGo]
    by_cases hc : cur = []
    · rw [if_pos hc, if_pos hc, List.nil_append]
    · rw [if_neg hc, if_neg hc, List.singleton_append]
  | cons x xs ih =>
    intro cur s b hs
    rw [List.cons_append, pyWordsGo]
    conv_rhs => rw [pyWordsGo]
    by_cases hx : isSp x = true
    · rw [if_pos hx, if_pos hx]
      by_cases hc : cur = []
      · rw [if_pos hc, if_pos hc, ih [] s b hs]
      · rw [if_neg hc, if_neg hc, ih [] s b hs, List.cons_append]
    · rw [if_neg hx, if_neg hx, ih (x :: cur) s b hs]

theorem pyWords_sep (a b : List Char) (s : Char) (hs : isSp s = true) :
    pyWords (a ++ s :: b) = pyWords a ++ pyWords b :=
  pyWordsGo_sep a [] s b hs

theorem splitNL_ne_nil : ∀ l : List Char, splitNL l ≠ [] := by
  intro l
  induction l with
  | nil => simp [splitNL]
  | cons c cs ih =>
    rw [splitNL]
    by_cases hc : c = '\n'
    · rw [if_pos hc]; simp
    · rw [if_neg hc]
      rcases splitNL cs with _ | ⟨r, rs⟩
      · exact List.cons_ne_nil _ _
      · exact List.cons_ne_nil _ _

theorem joinNL_splitNL : ∀ l : List Char, joinNL (splitNL l) = l := by
  intro l
  induction l with
  | nil => rfl
  | cons c cs ih =>
    rw [splitNL]
    by_cases hc : c = '\n'
    · rw [if_pos hc]
      subst hc
      rcases h : splitNL cs with _ | ⟨r, rs⟩
      · exact absurd h (splitNL_ne_nil cs)
      · rw [h] at ih
        have hj : joinNL ([] :: r :: rs) = [] ++ '\n' :: joinNL (r :: rs) := rfl
        rw [hj, List.nil_append, ih]
    · rw [if_neg hc]
      rcases h : splitNL cs with _ | ⟨r, rs⟩
      · exact absurd h (splitNL_ne_nil cs)
      · rw [h] at ih
        rcases rs with _ | ⟨r2, rs2⟩
        · have hj : joinNL [r] = r := rfl
          rw [hj] at ih
          subst ih
          rfl
        · have hj : joinNL ((c :: r) :: r2 :: rs2)
              = (c :: r) ++ '\n' :: joinNL (r2 :: rs2) := rfl
          have hj2 : joinNL (r :: r2 :: rs2) = r ++ '\n' :: joinNL (r2 :: rs2) := rfl
          rw [hj2] at ih
          rw [hj, List.cons_append, ih]

theorem pyWords_joinNL : ∀ subs : List (List Char),
    pyWords (joinNL subs) = subs.flatMap pyWords := by
  intro subs
  induction subs with
  | nil => rfl
  | cons x t ih =>
    rcases t with _ | ⟨y, ys⟩
    · show pyWords x = pyWords x ++ []
      rw [List.append_nil]
    · have hj : joinNL (x :: y :: ys) = x ++ '\n' :: joinNL (y :: ys) := rfl
      rw [hj, pyWords_sep x (joinNL (y :: ys)) '\n' (by decide), ih]
      rfl

theorem expandTabsGo_id : ∀ (l : List Char), (∀ c ∈ l, isSp c = false ∨ c = ' ') →
    ∀ col, expandTabsGo col l = l := by
  intro l
  induction l with
  | nil => intro _ col; rfl
  | cons c cs ih =>
    intro h col
    have hc := h c (by simp)
    have hnt : ¬ (c = '\t') := by
      intro he
      subst he
      rcases hc with hc | hc
      · simp [isSp] at hc
      · exact absurd hc (by decide)
    have hrest : ∀ x ∈ cs, isSp x = false ∨ x = ' ' := fun x hx => h x (by simp [hx])
    rw [expandTabsGo.eq_def]
    simp only
    rw [if_neg (by simpa using hnt)]
    by_cases hnn : (c = '\n' || c = '\r') = true
    · rw [if_pos hnn, ih hrest 0]
    · rw [if_neg hnn, ih hrest (col + 1)]

theorem replaceWS_id : ∀ (l : List Char), (∀ c ∈ l, isSp c = false ∨ c = ' ') →
    replaceWS l = l := by
  intro l
  induction l with
  | nil => intro _; rfl
  | cons c cs ih =>
    intro h
    have ht := ih (fun x hx => h x (by simp [hx]))
    rw [replaceWS] at ht
    rw [replaceWS, List.map_cons, ht]
    rcases h c (by simp) with hc | hc
    · rw [if_neg (by simp [hc])]
    · subst hc
      rw [if_pos (by decide)]

theorem munge_id (l : List Char) (h : ∀ c ∈ l, isSp c = false ∨ c = ' ') :
    munge l = l := by
  rw [munge, expandTabs, expandTabsGo_id l h 0, replaceWS_id l h]

theorem joinWS_chars (ws : List (List Char)) (hws : ∀ x ∈ ws, WordChunk x) :
    ∀ c ∈ joinWS ws, isSp c = false ∨ c = ' ' := by
  intro c hc
  rw [joinWS] at hc
  rcases List.mem_flatten.mp hc with ⟨chunk, hchunk, hcm⟩
  rcases mem_spaced ws chunk hchunk with h | h
  · exact Or.inl ((hws chunk h).2 c hcm)
  · subst h
    simp at hcm
    exact Or.inr hcm

theorem splitChunks_word : ∀ (a : List Char), (∀ c ∈ a, isSp c = false) → a ≠ [] →
    splitChunks a = [a] := by
  intro a
  induction a with
  | nil => intro _ hne; exact absurd rfl hne
  | cons c t ih =>
    intro h _
    have hc : isSp c = false := h c (by simp)
    rcases t with _ | ⟨c2, t0⟩
    · rfl
    · have iht := ih (fun x hx => h x (by simp [hx])) (by simp)
      have hc2 : isSp c2 = false := h c2 (by simp)
      have h1 : splitChunks (c :: c2 :: t0)
          = if isSp c = isSp c2 then (c :: c2 :: t0) :: ([] : List (List Char))
            else [c] :: (c2 :: t0) :: [] := by
        rw [splitChunks, iht]
      rw [h1, if_pos (by rw [hc, hc2])]

theorem splitChunks_sp_cons (r0 : Char) (rest : List Char) (h0 : isSp r0 = false) :
    splitChunks (' ' :: r0 :: rest) = [' '] :: splitChunks (r0 :: rest) := by
  rcases splitChunks_head r0 rest with ⟨t, rest2, hsc⟩
  have h1 : splitChunks (' ' :: r0 :: rest)
      = if isSp ' ' = isSp r0 then ((' ' :: r0 :: t) :: rest2)
        else [' '] :: (r0 :: t) :: rest2 := by
    rw [splitChunks, hsc]
  rw [h1, if_neg (by rw [h0]; decide), hsc]

theorem splitChunks_word_sp : ∀ (a : List Char), a ≠ [] → (∀ c ∈ a, isSp c = false) →
    ∀ rest : List Char,
      splitChunks (a ++ ' ' :: rest) = a :: splitChunks (' ' :: rest) := by
  intro a
  induction a with
  | nil => intro ha _ _; exact absurd rfl ha
  | cons c t ih =>
    intro _ hwc rest
    have hc : isSp c = false := hwc c (by simp)
    rcases t with _ | ⟨c2, t0⟩
    · rcases splitChunks_head ' ' rest with ⟨t2, rest2, hsc⟩
      have h1 : splitChunks ([c] ++ ' ' :: rest)
          = if isSp c = isSp ' ' then ((c :: ' ' :: t2) :: rest2)
            else [c] :: (' ' :: t2) :: rest2 := by
        rw [List.singleton_append, splitChunks, hsc]
      rw [h1, if_neg (by rw [hc]; decide), hsc]
    · have hc2 : isSp c2 = false := hwc c2 (by simp)
      have iht := ih (by simp) (fun x hx => hwc x (by simp [hx])) rest
      have h1 : splitChunks ((c :: c2 :: t0) ++ ' ' :: rest)
          = if isSp c = isSp c2 then (c :: c2 :: t0) :: splitChunks (' ' :: rest)
            else [c] :: (c2 :: t0) :: splitChunks (' ' :: rest) := by
        rw [List.cons_append, splitChunks, iht]
      rw [h1, if_pos (by rw [hc, hc2])]

theorem splitChunks_joinWS : ∀ (ws : List (List Char)), (∀ x ∈ ws, WordChunk x) →
    splitChunks (joinWS ws) = spaced ws := by
  intro ws
  induction ws with
  | nil => intro _; rfl
  | cons a t ih =>
    intro h
    have ha := h a (by simp)
    rcases t with _ | ⟨b, t2⟩
    · rw [joinWS_single, spaced_single]
      exact splitChunks_word a ha.2 ha.1
    · have hb := h b (by simp)
      rw [joinWS_cons_ne a (b :: t2) (by simp), spaced_cons_cons]
      rcases List.exists_cons_of_ne_nil hb.1 with ⟨b0, br, hb0⟩
      have hj : ∃ jt, joinWS (b :: t2) = b0 :: jt := by
        rcases t2 with _ | ⟨y, t3⟩
        · exact ⟨br, by rw [joinWS_single, hb0]⟩
        · exact ⟨br ++ ' ' :: joinWS (y :: t3),
            by rw [joinWS_cons_ne b _ (by simp), hb0]; rfl⟩
      rcases hj with ⟨jt, hj⟩
      rw [hj, splitChunks_word_sp a ha.1 ha.2 (b0 :: jt),
          splitChunks_sp_cons b0 jt (hb.2 b0 (by rw [hb0]; simp)),
          ← hj, ih (fun x hx => h x (by simp [hx]))]

theorem spaced_cons_ne (x : List Char) (t : List (List Char)) (ht : t ≠ []) :
    spaced (x :: t) = x :: [' '] :: spaced t := by
  rcases t with _ | ⟨y, ys⟩
  · exact absurd rfl ht
  · exact spaced_cons_cons x y ys

theorem spaced_ne_nil (as : List (List Char)) (hne : as ≠ []) : spaced as ≠ [] := by
  rcases as with _ | ⟨x, t⟩
  · exact absurd rfl hne
  · rcases t with _ | ⟨y, ys⟩
    · rw [spaced_single]; simp
    · rw [spaced_cons_cons]; simp

theorem spaced_last_word : ∀ (t : List (List Char)) (x : List Char),
    (∀ y ∈ x :: t, WordChunk y) →
    ∃ ch, (spaced (x :: t)).getLast? = some ch ∧ WordChunk ch := by
  intro t
  induction t with
  | nil =>
    intro x h
    rw [spaced_single]
    exact ⟨x, by simp, h x (by simp)⟩
  | cons y ys ih =>
    intro x h
    rcases ih y (fun z hz => h z (by
      rcases List.mem_cons.mp hz with hz | hz
      · simp [hz]
      · simp [hz])) with ⟨ch, hch, hw⟩
    refine ⟨ch, ?_, hw⟩
    rw [spaced_cons_cons]
    have hne := spaced_ne_nil (y :: ys) (by simp)
    rw [List.getLast?_cons_cons]
    rcases hsp : spaced (y :: ys) with _ | ⟨z, zs⟩
    · exact absurd hsp hne
    · rw [List.getLast?_cons_cons, ← hsp, hch]

theorem dropTrailingWS_spaced (as : List (List Char)) (hne : as ≠ [])
    (hw : ∀ x ∈ as, WordChunk x) : dropTrailingWS (spaced as) = spaced as := by
  rcases as with _ | ⟨x, t⟩
  · exact absurd rfl hne
  · rcases spaced_last_word t x hw with ⟨ch, hch, hwc⟩
    have hdt : dropTrailingWS (spaced (x :: t))
        = if isWSChunk ch then (spaced (x :: t)).dropLast else spaced (x :: t) := by
      rw [dropTrailingWS, hch]
    rw [hdt, if_neg (by rw [isWSChunk_of_word hwc]; simp)]

theorem dropTrailingWS_concat_ws (l : List (List Char)) :
    dropTrailingWS (l ++ [[' ']]) = l := by
  have hg : (l ++ [[' ']]).getLast? = some [' '] := List.getLast?_concat l
  have hdt : dropTrailingWS (l ++ [[' ']])
      = if isWSChunk [' '] then (l ++ [[' ']]).dropLast else l ++ [[' ']] := by
    rw [dropTrailingWS, hg]
  rw [hdt, if_pos (by decide), List.dropLast_concat]

theorem packLine_spaced (width : Nat) : ∀ (ws : List (List Char)) (acc : Nat),
    (∀ x ∈ ws, x.length ≤ width) →
    ∃ as bs, ws = as ++ bs ∧
      ((as = [] ∧ (packLine width acc (spaced ws)).1 = []
          ∧ (packLine width acc (spaced ws)).2 = spaced ws) ∨
       (as ≠ [] ∧ bs = [] ∧ (packLine width acc (spaced ws)).1 = spaced as
          ∧ (packLine width acc (spaced ws)).2 = []) ∨
       (as ≠ [] ∧ bs ≠ [] ∧ (packLine width acc (spaced ws)).1 = spaced as
          ∧ (packLine width acc (spaced ws)).2 = [' '] :: spaced bs) ∨
       (as ≠ [] ∧ bs ≠ [] ∧ (packLine width acc (spaced ws)).1 = spaced as ++ [[' ']]
          ∧ (packLine width acc (spaced ws)).2 = spaced bs)) := by
  intro ws
  induction ws with
  | nil =>
    intro acc _
    exact ⟨[], [], rfl, Or.inl ⟨rfl, rfl, rfl⟩⟩
  | cons w0 t ih =>
    intro acc h
    rcases t with _ | ⟨w1, t2⟩
    · by_cases hfit : acc + w0.length ≤ width
      · have hp := packLine_cons_le width w0 [] acc hfit
        refine ⟨[w0], [], rfl, Or.inr (Or.inl ⟨by simp, rfl, ?_, ?_⟩)⟩
        · rw [spaced_single, hp.1]
          rfl
        · rw [spaced_single, hp.2]
          rfl
      · have hgt := packLine_cons_gt width w0 [] acc hfit
        refine ⟨[], [w0], rfl, Or.inl ⟨rfl, ?_, ?_⟩⟩
        · rw [spaced_single, hgt]
        · rw [spaced_single, hgt]
    · have hs : spaced (w0 :: w1 :: t2) = w0 :: [' '] :: spaced (w1 :: t2) :=
        spaced_cons_cons w0 w1 t2
      by_cases hfit : acc + w0.length ≤ width
      · have hp := packLine_cons_le width w0 ([' '] :: spaced (w1 :: t2)) acc hfit
        by_cases hfit2 : acc + w0.length + ([' '] : List Char).length ≤ width
        · have hq := packLine_cons_le width [' '] (spaced (w1 :: t2)) (acc + w0.length) hfit2
          rcases ih (acc + w0.length + ([' '] : List Char).length)
              (fun x hx => h x (by simp [hx])) with ⟨as2, bs2, heq2, hcase⟩
          rcases hcase with ⟨ha2, hc1, hc2⟩ | ⟨ha2, hb2, hc1, hc2⟩ |
            ⟨ha2, hb2, hc1, hc2⟩ | ⟨ha2, hb2, hc1, hc2⟩
          · subst ha2
            rw [List.nil_append] at heq2
            refine ⟨[w0], w1 :: t2, rfl,
              Or.inr (Or.inr (Or.inr ⟨by simp, by simp, ?_, ?_⟩))⟩
            · rw [hs, hp.1, hq.1, hc1]
              rfl
            · rw [hs, hp.2, hq.2, hc2]
          · rw [hb2, List.append_nil] at heq2
            refine ⟨w0 :: as2, [], by rw [List.append_nil, heq2],
              Or.inr (Or.inl ⟨by simp, rfl, ?_, ?_⟩)⟩
            · rw [hs, hp.1, hq.1, hc1, spaced_cons_ne w0 as2 ha2]
            · rw [hs, hp.2, hq.2, hc2]
          · refine ⟨w0 :: as2, bs2, by rw [List.cons_append, ← heq2],
              Or.inr (Or.inr (Or.inl ⟨by simp, hb2, ?_, ?_⟩))⟩
            · rw [hs, hp.1, hq.1, hc1, spaced_cons_ne w0 as2 ha2]
            · rw [hs, hp.2, hq.2, hc2]
          · refine ⟨w0 :: as2, bs2, by rw [List.cons_append, ← heq2],
              Or.inr (Or.inr (Or.inr ⟨by simp, hb2, ?_, ?_⟩))⟩
            · rw [hs, hp.1, hq.1, hc1, spaced_cons_ne w0 as2 ha2]
              rfl
            · rw [hs, hp.2, hq.2, hc2]
        · have hq : packLine width (acc + w0.length) ([' '] :: spaced (w1 :: t2))
              = ([], [' '] :: spaced (w1 :: t2)) :=
            packLine_cons_gt width [' '] (spaced (w1 :: t2)) (acc + w0.length) hfit2
          refine ⟨[w0], w1 :: t2, rfl,
            Or.inr (Or.inr (Or.inl ⟨by simp, by simp, ?_, ?_⟩))⟩
          · rw [hs, hp.1, hq]
            rfl
          · rw [hs, hp.2, hq]
      · have hgt : packLine width acc (spaced (w0 :: w1 :: t2))
            = ([], spaced (w0 :: w1 :: t2)) := by
          rw [hs]
          exact packLine_cons_gt width w0 ([' '] :: spaced (w1 :: t2)) acc hfit
        exact ⟨[], w0 :: w1 :: t2, rfl, Or.inl ⟨rfl, by rw [hgt], by rw [hgt]⟩⟩

theorem wrapStepCore_spaced (width : Nat) (w0 : List Char) (t : List (List Char))
    (hws : ∀ x ∈ w0 :: t, WordChunk x ∧ x.length ≤ width) :
    ∃ as bs, w0 :: t = as ++ bs ∧ as ≠ [] ∧
      (wrapStepCore width (spaced (w0 :: t))).1 = some (joinWS as) ∧
      ((bs = [] ∧ (wrapStepCore width (spaced (w0 :: t))).2 = []) ∨
       (bs ≠ [] ∧ ((wrapStepCore width (spaced (w0 :: t))).2 = [' '] :: spaced bs
           ∨ (wrapStepCore width (spaced (w0 :: t))).2 = spaced bs))) := by
  rcases packLine_spaced width (w0 :: t) 0 (fun x hx => (hws x hx).2) with
    ⟨as, bs, heq, hcase⟩
  have hfit : 0 + w0.length ≤ width := by
    have := (hws w0 (by simp)).2
    omega
  have hspc : ∃ T, spaced (w0 :: t) = w0 :: T := by
    rcases t with _ | ⟨y, ys⟩
    · exact ⟨[], spaced_single w0⟩
    · exact ⟨[' '] :: spaced (y :: ys), spaced_cons_cons w0 y ys⟩
  rcases hspc with ⟨T, hT⟩
  have hp1ne : (packLine width 0 (spaced (w0 :: t))).1 ≠ [] := by
    rw [hT, (packLine_cons_le width w0 T 0 hfit).1]
    simp
  have hwordas : ∀ x ∈ as, WordChunk x := fun x hx =>
    (hws x (by rw [heq]; exact List.mem_append_left bs hx)).1
  have h1 : (wrapStepCore width (spaced (w0 :: t))).1
      = (if dropTrailingWS (handleLongWord width
            (packLine width 0 (spaced (w0 :: t)))).1 = [] then none
         else some (dropTrailingWS (handleLongWord width
            (packLine width 0 (spaced (w0 :: t)))).1).flatten) := by
    rw [wrapStepCore_eq]
  have h2 : (wrapStepCore width (spaced (w0 :: t))).2
      = (handleLongWord width (packLine width 0 (spaced (w0 :: t)))).2 := by
    rw [wrapStepCore_eq]
  have hhl := handleLongWord_of_ne width (packLine width 0 (spaced (w0 :: t))) hp1ne
  rcases hcase with ⟨ha, hc1, _⟩ | ⟨ha, hb, hc1, hc2⟩ |
    ⟨ha, hb, hc1, hc2⟩ | ⟨ha, hb, hc1, hc2⟩
  · exact absurd hc1 hp1ne
  · refine ⟨as, [], by rw [heq, hb], ha, ?_, Or.inl ⟨rfl, ?_⟩⟩
    · rw [h1, hhl, hc1, dropTrailingWS_spaced as ha hwordas,
        if_neg (spaced_ne_nil as ha)]
      rfl
    · rw [h2, hhl, hc2]
  · refine ⟨as, bs, heq, ha, ?_, Or.inr ⟨hb, Or.inl ?_⟩⟩
    · rw [h1, hhl, hc1, dropTrailingWS_spaced as ha hwordas,
        if_neg (spaced_ne_nil as ha)]
      rfl
    · rw [h2, hhl, hc2]
  · refine ⟨as, bs, heq, ha, ?_, Or.inr ⟨hb, Or.inr ?_⟩⟩
    · rw [h1, hhl, hc1, dropTrailingWS_concat_ws (spaced as),
        if_neg (spaced_ne_nil as ha)]
      rfl
    · rw [h2, hhl, hc2]

theorem wrapGo_spaced (width : Nat) : ∀ (fuel : Nat) (ws : List (List Char))
    (emitted : Bool) (chunks : List (List Char)),
    (∀ x ∈ ws, WordChunk x ∧ x.length ≤ width) →
    (chunks = spaced ws ∨ (emitted = true ∧ chunks = [' '] :: spaced ws)) →
    chunks.length ≤ fuel →
    ∃ groups : List (List (List Char)),
      wrapChunksGo width fuel emitted chunks = groups.map (fun g => joinWS g) ∧
      groups.flatten = ws ∧ ∀ g ∈ groups, g ≠ [] := by
  intro fuel
  induction fuel with
  | zero =>
    intro ws emitted chunks hws hshape hlen
    have hc : chunks = [] := List.length_eq_zero.mp (Nat.le_zero.mp hlen)
    subst hc
    rcases hshape with hsh | ⟨_, hsh⟩
    · have hws0 : ws = [] := by
        rcases ws with _ | ⟨x, t⟩
        · rfl
        · exact absurd hsh.symm (spaced_ne_nil (x :: t) (by simp))
      subst hws0
      exact ⟨[], by rw [wrapChunksGo_nil]; rfl, rfl, by simp⟩
    · exact absurd hsh (by simp)
  | succ fuel ih =>
    intro ws emitted chunks hws hshape hlen
    rcases ws with _ | ⟨w0, t⟩
    · rcases hshape with hsh | ⟨hem, hsh⟩
      · rw [hsh, spaced_nil, wrapChunksGo_nil]
        exact ⟨[], rfl, rfl, by simp⟩
      · subst hem
        rw [hsh, spaced_nil, wrapChunksGo_cons]
        have hstep : wrapStep width true [[' ']] = (none, []) := by
          rw [wrapStep, if_pos ⟨rfl, rfl⟩]
          exact wrapStepCore_nil width
        rw [hstep]
        have hred : (match ((none : Option (List Char)), ([] : List (List Char))) with
            | (some line, rest) => line :: wrapChunksGo width fuel true rest
            | (none, rest) => wrapChunksGo width fuel true rest)
            = wrapChunksGo width fuel true [] := rfl
        rw [hred, wrapChunksGo_nil]
        exact ⟨[], rfl, rfl, by simp⟩
    · rcases wrapStepCore_spaced width w0 t hws with ⟨as, bs, heq, hane, hl1, hrest⟩
      have hword0 : isWSChunk w0 = false := isWSChunk_of_word (hws w0 (by simp)).1
      have hspc : ∃ T, spaced (w0 :: t) = w0 :: T := by
        rcases t with _ | ⟨y, ys⟩
        · exact ⟨[], spaced_single w0⟩
        · exact ⟨[' '] :: spaced (y :: ys), spaced_cons_cons w0 y ys⟩
      rcases hspc with ⟨T, hT⟩
      have hchunks_cons : ∃ c cs, chunks = c :: cs := by
        rcases hshape with hsh | ⟨_, hsh⟩
        · exact ⟨w0, T, by rw [hsh, hT]⟩
        · exact ⟨[' '], spaced (w0 :: t), hsh⟩
      rcases hchunks_cons with ⟨c, cs, hcc⟩
      subst hcc
      have hstep : wrapStep width emitted (c :: cs)
          = wrapStepCore width (spaced (w0 :: t)) := by
        rcases hshape with hsh | ⟨hem, hsh⟩
        · have hcond : ¬ (emitted = true ∧ isWSChunk w0 = true) := by
            intro hcon
            rw [hword0] at hcon
            exact Bool.false_ne_true hcon.2
          rw [hsh, hT, wrapStep, if_neg hcond]
        · rw [hsh, hem, wrapStep, if_pos ⟨rfl, rfl⟩]
      rw [wrapChunksGo_cons, hstep]
      have hpair : wrapStepCore width (spaced (w0 :: t))
          = (some (joinWS as), (wrapStepCore width (spaced (w0 :: t))).2) := by
        rw [← hl1]
      rw [hpair]
      have hred : (match (some (joinWS as), (wrapStepCore width (spaced (w0 :: t))).2) with
          | (some line, rest) => line :: wrapChunksGo width fuel true rest
          | (none, rest) => wrapChunksGo width fuel emitted rest)
          = joinWS as :: wrapChunksGo width fuel true
              (wrapStepCore width (spaced (w0 :: t))).2 := rfl
      rw [hred]
      have hlen2 : 2 * t.length ≤ fuel := by
        have hsp := spaced_len t w0
        rcases hshape with hsh | ⟨_, hsh⟩
        · have hlc : (c :: cs).length = 2 * t.length + 1 := by rw [hsh, hsp]
          omega
        · have hlc : (c :: cs).length = 2 * t.length + 2 := by
            rw [hsh]
            simp [hsp]
          omega
      have hbs_le : bs.length ≤ t.length := by
        have hl3 : (w0 :: t).length = as.length + bs.length := by rw [heq]; simp
        have has1 : 1 ≤ as.length := by
          rcases as with _ | ⟨a, as2⟩
          · exact absurd rfl hane
          · simp
        simp only [List.length_cons] at hl3
        omega
      have hwsbs : ∀ x ∈ bs, WordChunk x ∧ x.length ≤ width := fun x hx =>
        hws x (by rw [heq]; exact List.mem_append_right as hx)
      rcases hrest with ⟨hb, hr2⟩ | ⟨hb, hr2⟩
      · rw [hr2, wrapChunksGo_nil]
        rw [hb, List.append_nil] at heq
        exact ⟨[as], rfl, by simp [← heq], by simp [hane]⟩
      · rcases hr2 with hr2 | hr2
        · rcases ih bs true ([' '] :: spaced bs) hwsbs (Or.inr ⟨rfl, rfl⟩)
            (by
              rcases List.exists_cons_of_ne_nil hb with ⟨b0, bt, hbs⟩
              subst hbs
              have hsp2 := spaced_len bt b0
              simp only [List.length_cons] at hbs_le ⊢
              omega) with ⟨groups, hg1, hg2, hg3⟩
          rw [hr2, hg1]
          refine ⟨as :: groups, rfl, ?_, ?_⟩
          · rw [List.flatten_cons, hg2, ← heq]
          · intro g hg
            rcases List.mem_cons.mp hg with hgx | hgx
            · subst hgx; exact hane
            · exact hg3 g hgx
        · rcases ih bs true (spaced bs) hwsbs (Or.inl rfl)
            (by
              rcases List.exists_cons_of_ne_nil hb with ⟨b0, bt, hbs⟩
              subst hbs
              have hsp2 := spaced_len bt b0
              simp only [List.length_cons] at hbs_le
              omega) with ⟨groups, hg1, hg2, hg3⟩
          rw [hr2, hg1]
          refine ⟨as :: groups, rfl, ?_, ?_⟩
          · rw [List.flatten_cons, hg2, ← heq]
          · intro g hg
            rcases List.mem_cons.mp hg with hgx | hgx
            · subst hgx; exact hane
            · exact hg3 g hgx

theorem textwrapWrap_spaced (width : Nat) (ws : List (List Char))
    (hws : ∀ x ∈ ws, WordChunk x ∧ x.length ≤ width) :
    ∃ groups : List (List (List Char)),
      textwrapWrap width (joinWS ws) = groups.map (fun g => joinWS g) ∧
      groups.flatten = ws ∧ ∀ g ∈ groups, g ≠ [] := by
  have hm : munge (joinWS ws) = joinWS ws :=
    munge_id _ (joinWS_chars ws (fun x hx => (hws x hx).1))
  have hsc : splitChunks (munge (joinWS ws)) = spaced ws := by
    rw [hm]
    exact splitChunks_joinWS ws (fun x hx => (hws x hx).1)
  have hun : textwrapWrap width (joinWS ws)
      = wrapChunksGo width (splitChunks (munge (joinWS ws))).length false
          (splitChunks (munge (joinWS ws))) := rfl
  rw [hun, hsc]
  exact wrapGo_spaced width (spaced ws).length ws false (spaced ws) hws
    (Or.inl rfl) (le_refl _)

theorem wrapSub_joinWS (width : Nat) (sub : List Char)
    (hnorm : pyStrip sub = joinWS (pyWords sub))
    (hlen : ∀ tok ∈ pyWords sub, tok.length ≤ width) :
    joinWS ((wrapSub width sub).filter (fun l => !l.isEmpty)) = joinWS (pyWords sub)
    ∧ ((wrapSub width sub).filter (fun l => !l.isEmpty) = [] ↔ pyWords sub = []) := by
  have hun : wrapSub width sub
      = if pyStrip sub = [] then [[]]
        else (if textwrapWrap width (pyStrip sub) = [] then [[]]
              else textwrapWrap width (pyStrip sub)) := rfl
  by_cases hw0 : pyWords sub = []
  · have hstrip : pyStrip sub = [] := by rw [hnorm, hw0]; rfl
    have hws1 : wrapSub width sub = [[]] := by rw [hun, if_pos hstrip]
    rw [hws1, hw0]
    exact ⟨rfl, ⟨fun _ => rfl, fun _ => rfl⟩⟩
  · rcases List.exists_cons_of_ne_nil hw0 with ⟨t0, ts, hwsw⟩
    have hwords : ∀ x ∈ pyWords sub, WordChunk x ∧ x.length ≤ width := fun x hx =>
      ⟨pyWords_words sub x hx, hlen x hx⟩
    have hjne : joinWS (pyWords sub) ≠ [] := by
      rw [hwsw]
      exact joinWS_ne_nil t0 ts (pyWords_words sub t0 (by rw [hwsw]; simp)).1
    have hstrip_ne : pyStrip sub ≠ [] := by rw [hnorm]; exact hjne
    rcases textwrapWrap_spaced width (pyWords sub) hwords with ⟨groups, hg1, hg2, hg3⟩
    have hlines : textwrapWrap width (pyStrip sub) = groups.map (fun g => joinWS g) := by
      rw [hnorm]; exact hg1
    have hgne : groups ≠ [] := by
      intro hcon
      rw [hcon] at hg2
      exact hw0 hg2.symm
    have hlne : textwrapWrap width (pyStrip sub) ≠ [] := by
      rw [hlines]
      rcases groups with _ | ⟨g, gs⟩
      · exact absurd rfl hgne
      · simp
    have hws1 : wrapSub width sub = groups.map (fun g => joinWS g) := by
      rw [hun, if_neg hstrip_ne, if_neg hlne, hlines]
    have hfilter : (groups.map (fun g => joinWS g)).filter (fun l => !l.isEmpty)
        = groups.map (fun g => joinWS g) := by
      rw [List.filter_eq_self]
      intro a ha
      rcases List.mem_map.mp ha with ⟨g, hgmem, hgeq⟩
      rcases List.exists_cons_of_ne_nil (hg3 g hgmem) with ⟨x, xt, hgx⟩
      have hxw : WordChunk x := by
        have hxmem : x ∈ pyWords sub := by
          rw [← hg2]
          exact List.mem_flatten.mpr ⟨g, hgmem, by rw [hgx]; simp⟩
        exact pyWords_words sub x hxmem
      have hne : joinWS g ≠ [] := by
        rw [hgx]
        exact joinWS_ne_nil x xt hxw.1
      rw [← hgeq]
      simp [hne]
    constructor
    · rw [hws1, hfilter, joinWS_groups groups hg3, hg2]
    · rw [hws1, hfilter]
      constructor
      · intro hcon
        refine absurd ?_ hgne
        rcases groups with _ | ⟨g, gs⟩
        · rfl
        · simp at hcon
      · intro hcon
        exact absurd hcon hw0

/-- C5 fails as stated: interior whitespace runs inside a line are kept by
`textwrap`, not collapsed.  For the input `"a  b"` (no paragraph breaks, no
token longer than the width) the single wrapped line is `"a  b"` while the
whitespace-collapsed original is `"a b"`. -/
theorem c5_counterexample_interior_spaces :
    splitOnNewlinePair "a  b".toList = ["a  b".toList]
    ∧ (∀ tok ∈ pyWords "a  b".toList, tok.length ≤ 30)
    ∧ joinWS ((wrap_text 30 "a  b".toList).filter (fun l => !l.isEmpty))
        ≠ wsCollapse "a  b".toList := by
  refine ⟨by decide, by decide, by decide⟩

/-- C5 (amended): for text with no blank-line paragraph break, whose
newline-separated segments are already single-spaced and trimmed (each
segment stripped equals its whitespace tokens joined by single spaces), and
whose tokens all fit within the positive width, joining the non-blank lines
of `wrap_text` with single spaces reconstructs the whitespace-collapsed
original text. -/
theorem c5_wrap_join_roundtrip (width : Nat) (text : List Char)
    (hpar : splitOnNewlinePair text = [text])
    (hnorm : ∀ sub ∈ splitNL text, pyStrip sub = joinWS (pyWords sub))
    (hlen : ∀ tok ∈ pyWords text, tok.length ≤ width)
    (_hw : 0 < width) :
    joinWS ((wrap_text width text).filter (fun l => !l.isEmpty))
      = wsCollapse text := by
  have hwt : wrap_text width text = (splitNL text).flatMap (wrapSub width) := by
    rw [wrap_text, hpar]
    rfl
  have hflt : ((splitNL text).flatMap (wrapSub width)).filter (fun l => !l.isEmpty)
      = (splitNL text).flatMap
          (fun sub => (wrapSub width sub).filter (fun l => !l.isEmpty)) :=
    List.filter_flatMap _ _ _
  have hdecomp : pyWords text = (splitNL text).flatMap pyWords := by
    conv_lhs => rw [← joinNL_splitNL text]
    exact pyWords_joinNL (splitNL text)
  have htok : ∀ sub ∈ splitNL text, ∀ tok ∈ pyWords sub, tok.length ≤ width := by
    intro sub hsub tok htokm
    apply hlen
    rw [hdecomp]
    exact List.mem_flatMap.mpr ⟨sub, hsub, htokm⟩
  rw [wsCollapse, hwt, hflt, hdecomp]
  exact joinWS_flatMap_congr _ _ (splitNL text) (fun sub hsub =>
    wrapSub_joinWS width sub (hnorm sub hsub) (htok sub hsub))

theorem c5_witness :
    (splitOnNewlinePair "ab cd".toList = ["ab cd".toList]
      ∧ (∀ sub ∈ splitNL "ab cd".toList, pyStrip sub = joinWS (pyWords sub))
      ∧ (∀ tok ∈ pyWords "ab cd".toList, tok.length ≤ 3)
      ∧ 0 < 3)
    ∧ joinWS ((wrap_text 3 "ab cd".toList).filter (fun l => !l.isEmpty))
        = wsCollapse "ab cd".toList :=
  ⟨⟨by decide, by decide, by decide, by decide⟩,
   c5_wrap_join_roundtrip 3 "ab cd".toList (by decide) (by decide)
     (by decide) (by decide)⟩
